import Mathlib

/-!
# Verification of the geth-log-cruncher line-parsing engine

Shallow embedding of `src/main.rs`: the log-line classifier (`LOG_REGEX`),
the timestamp reconstruction (`format!("{}-{}", year, ts)` +
`NaiveDateTime::parse_from_str(_, "%Y-%m-%d|%H:%M:%S%.f")` +
`and_local_timezone(Local).single()`), the key=value attribute extractor
(`KV_REGEX` + unquoting + `HashMap` inserts), the per-line processing loop
(`process_log_file`) and the run driver (`run`).

Strings are modelled as `List Char`.  The local time zone is an abstract
parameter `Tz : NaiveDT → LocalResult`, mirroring chrono's
`TimeZone::from_local_datetime` and its three-way `LocalResult`.
Character classes (`\s`, `\w`, ASCII digits) follow the `regex` crate's
defaults; `\w` is modelled on the ASCII range (all log text in scope is
ASCII; non-ASCII Unicode word characters are outside every claim).
-/

namespace LogCruncher

/-- The Unicode `White_Space` code points: exactly the set matched by the
`regex` crate's `\s`, by `str::trim_start`, and by `char::is_whitespace`. -/
def isRustSpace (c : Char) : Bool :=
  (9 ≤ c.toNat && c.toNat ≤ 13) || c.toNat == 32 || c.toNat == 0x85 ||
  c.toNat == 0xA0 || c.toNat == 0x1680 ||
  (0x2000 ≤ c.toNat && c.toNat ≤ 0x200A) || c.toNat == 0x2028 ||
  c.toNat == 0x2029 || c.toNat == 0x202F || c.toNat == 0x205F || c.toNat == 0x3000

/-- ASCII decimal digit — the class consumed by chrono's `scan::number`. -/
def isDigitChar (c : Char) : Bool :=
  48 ≤ c.toNat && c.toNat ≤ 57

/-- The `regex` crate's `\w` (word character), on the ASCII range:
`[0-9A-Za-z_]`. -/
def isWordChar (c : Char) : Bool :=
  (48 ≤ c.toNat && c.toNat ≤ 57) || (65 ≤ c.toNat && c.toNat ≤ 90) ||
  (97 ≤ c.toNat && c.toNat ≤ 122) || c.toNat == 95

/-! ## Decimal formatting (Rust `format!("{}", _)` for integers) -/

/-- The ASCII digit character for `n < 10`. -/
def digitChar (n : Nat) : Char := Char.ofNat (48 + n)

def natDecimalAux : Nat → Nat → List Char
  | 0, _ => []
  | fuel + 1, n =>
    if n < 10 then [digitChar n]
    else natDecimalAux fuel (n / 10) ++ [digitChar (n % 10)]

/-- Decimal representation of a natural number, as produced by Rust's `{}`
formatting of an unsigned value (no sign, no padding). -/
def natDecimal (n : Nat) : List Char := natDecimalAux (n + 1) n

/-- Decimal representation of an integer, as produced by Rust's `{}`
formatting of an `i32`. -/
def intDecimal (i : Int) : List Char :=
  if i < 0 then '-' :: natDecimal (-i).toNat else natDecimal i.toNat

/-- The numeric value of a digit string (chrono's accumulation loop). -/
def digitsVal (l : List Char) : Nat := l.foldl (fun a c => a * 10 + (c.toNat - 48)) 0

/-! ## chrono's `parse_from_str` with format `"%Y-%m-%d|%H:%M:%S%.f"`

`NaiveDateTime::parse_from_str` iterates the strftime items
`[%Y, '-', %m, '-', %d, '|', %H, ':', %M, ':', %S, %.f]` and then requires the
input to be fully consumed.  A `Numeric` item first trims leading Unicode
whitespace, then reads 1..width ASCII digits (width 2 for `%m %d %H %M %S`;
for `%Y`, width 4 without an explicit sign, unlimited after a leading `+`/`-`),
erroring on an empty digit run or on `i64` overflow of the accumulated value.
`%.f` is optional: it consumes nothing unless the next character is `'.'`, in
which case 1–9 digits are read (scaled to nanoseconds) and any further digits
are skipped. -/

/-- chrono `scan::number(s, 1, max)`: up to `max` leading ASCII digits
(`none` = unlimited), at least one, value bounded by `i64::MAX`. -/
def scanNumber (max : Option Nat) (s : List Char) : Option (Nat × List Char) :=
  let digs := match max with
    | some m => (s.takeWhile isDigitChar).take m
    | none => s.takeWhile isDigitChar
  if digs = [] then none
  else if digitsVal digs ≤ 9223372036854775807 then
    some (digitsVal digs, s.drop digs.length)
  else none

/-- A two-digit-width numeric item (`%m`, `%d`, `%H`, `%M`, `%S`):
trim leading whitespace, then read 1–2 digits. -/
def parseNumU (w : Nat) (s : List Char) : Option (Nat × List Char) :=
  scanNumber (some w) (s.dropWhile isRustSpace)

/-- The `%Y` item: trim leading whitespace; with an explicit sign the digit
count is unlimited, otherwise at most 4 digits are read.  (chrono additionally
requires the value to fit an `i32` when setting the year; every year outside
that range also fails the calendar-range validation below, so the outcome is
identical.) -/
def parseYear (s : List Char) : Option (Int × List Char) :=
  if (s.dropWhile isRustSpace).head? = some '-' then
    (scanNumber none (s.dropWhile isRustSpace).tail).map
      (fun p => (-(p.1 : Int), p.2))
  else if (s.dropWhile isRustSpace).head? = some '+' then
    (scanNumber none (s.dropWhile isRustSpace).tail).map
      (fun p => ((p.1 : Int), p.2))
  else
    (scanNumber (some 4) (s.dropWhile isRustSpace)).map
      (fun p => ((p.1 : Int), p.2))

/-- A literal format character: matched exactly, no whitespace trimming. -/
def parseLit (c : Char) (s : List Char) : Option (List Char) :=
  match s with
  | d :: rest => if d = c then some rest else none
  | [] => none

/-- The `%.f` item (`Fixed::Nanosecond` + `scan::nanosecond`): optional; on a
`'.'`, reads at least one digit, scales the first nine digits to nanoseconds
and skips any remaining digits. -/
def parseFrac (s : List Char) : Option (Nat × List Char) :=
  if s.head? = some '.' then
    if s.tail.takeWhile isDigitChar = [] then none
    else
      some (digitsVal ((s.tail.takeWhile isDigitChar).take 9) *
              10 ^ (9 - ((s.tail.takeWhile isDigitChar).take 9).length),
            s.tail.drop (s.tail.takeWhile isDigitChar).length)
  else some (0, s)

/-- The raw fields recovered by a syntactically successful
`parse_from_str` run (chrono's `Parsed`, for this fixed format). -/
structure RawComps where
  year : Int
  month : Nat
  day : Nat
  hour : Nat
  minute : Nat
  second : Nat
  nano : Nat
  deriving DecidableEq, Repr

/-- The syntactic phase of
`NaiveDateTime::parse_from_str(s, "%Y-%m-%d|%H:%M:%S%.f")`: item-by-item
scanning, then the full-consumption (`TOO_LONG`) check. -/
def chronoParseFmt (s : List Char) : Option RawComps := do
  let (y, s) ← parseYear s
  let s ← parseLit '-' s
  let (mo, s) ← parseNumU 2 s
  let s ← parseLit '-' s
  let (d, s) ← parseNumU 2 s
  let s ← parseLit '|' s
  let (h, s) ← parseNumU 2 s
  let s ← parseLit ':' s
  let (mi, s) ← parseNumU 2 s
  let s ← parseLit ':' s
  let (sec, s) ← parseNumU 2 s
  let (na, s) ← parseFrac s
  if s = [] then pure ⟨y, mo, d, h, mi, sec, na⟩ else none

/-- Proleptic-Gregorian leap-year rule (chrono's calendar). -/
def isLeapYear (y : Int) : Bool :=
  y % 4 == 0 && (y % 100 != 0 || y % 400 == 0)

/-- Days in a month (chrono `NaiveDate::from_ymd_opt` validity bound). -/
def daysInMonth (y : Int) (m : Nat) : Nat :=
  if m = 2 then (if isLeapYear y then 29 else 28)
  else if m = 4 ∨ m = 6 ∨ m = 9 ∨ m = 11 then 30 else 31

/-- A resolved naive local date-time.  Mirrors chrono's `NaiveDateTime`
representation: a parsed second of 60 (leap second) is stored as second 59
with an extra 1_000_000_000 nanoseconds, which is also what the `second()`
accessor reports. -/
structure NaiveDT where
  year : Int
  month : Nat
  day : Nat
  hour : Nat
  minute : Nat
  second : Nat
  nano : Nat
  deriving DecidableEq, Repr

/-- chrono's leap-second folding in `Parsed::to_naive_time`. -/
def foldLeap (c : RawComps) : NaiveDT :=
  if c.second = 60 then
    ⟨c.year, c.month, c.day, c.hour, c.minute, 59, c.nano + 1000000000⟩
  else
    ⟨c.year, c.month, c.day, c.hour, c.minute, c.second, c.nano⟩

/-- The validity checks performed across chrono's field setters
(`set_hour` rejects hours ≥ 24), `Parsed::to_naive_date`
(`from_ymd_opt`: year in `MIN_YEAR ..= MAX_YEAR`, month 1–12, day within the
month) and `Parsed::to_naive_time` (minute ≤ 59, second ≤ 60 with 60 folded
into a leap second).  All checks are conjunctive, so they are gathered here;
any failure makes the whole `parse_from_str` return an error. -/
def validateComps (c : RawComps) : Option NaiveDT :=
  if -262144 ≤ c.year ∧ c.year ≤ 262143 ∧
     1 ≤ c.month ∧ c.month ≤ 12 ∧ 1 ≤ c.day ∧ c.day ≤ daysInMonth c.year c.month ∧
     c.hour ≤ 23 ∧ c.minute ≤ 59 ∧ c.second ≤ 60
  then some (foldLeap c) else none

/-- The calendar-validity condition that chrono enforces, in arithmetic
terms: year in chrono's range, month 1–12, day within the month, hour ≤ 23,
minute ≤ 59, and second ≤ 60 (60 only as a leap-second reading). -/
def GoodComps (c : RawComps) : Prop :=
  -262144 ≤ c.year ∧ c.year ≤ 262143 ∧ 1 ≤ c.month ∧ c.month ≤ 12 ∧
  1 ≤ c.day ∧ c.day ≤ daysInMonth c.year c.month ∧ c.hour ≤ 23 ∧
  c.minute ≤ 59 ∧ c.second ≤ 60

/-- chrono's `LocalResult` for `TimeZone::from_local_datetime`: a naive local
date-time can correspond to no instant (a clock-skip gap), exactly one, or
two (a clock-turn-back fold). -/
inductive LocalResult where
  | nonexistent : LocalResult
  | single (offsetSeconds : Int) : LocalResult
  | ambiguous (earliest latest : Int) : LocalResult
  deriving DecidableEq, Repr

/-- The local time zone, abstracted: what `Local.from_local_datetime` answers
for each naive local date-time.  The program is verified for every such
assignment (the real one is operating-system state). -/
def Tz : Type := NaiveDT → LocalResult

/-- chrono `DateTime<Local>`: a naive local date-time plus the attached
offset.  Component accessors (`month()`, `day()`, …) read the naive local
fields. -/
structure DateTimeLocal where
  naive : NaiveDT
  offsetSeconds : Int
  deriving DecidableEq, Repr

/-- chrono `LocalResult::single()`: `Some` exactly in the unambiguous case. -/
def singleOffset : LocalResult → Option Int
  | LocalResult.single off => some off
  | _ => none

/-- `format!("{}-{}", year, raw_timestamp_str)` — main.rs line 150. -/
def withYear (year : Int) (raw : List Char) : List Char :=
  intDecimal year ++ '-' :: raw

/-- Timestamp reconstruction — main.rs lines 150–152:
`parse_from_str` on the year-prefixed text, then
`and_local_timezone(Local).single()?`; `LocalResult::single` answers `Some`
only in the unambiguous case. -/
def reconstruct (tz : Tz) (raw : List Char) (year : Int) : Option DateTimeLocal :=
  (chronoParseFmt (withYear year raw)).bind fun c =>
    (validateComps c).bind fun ndt =>
      (singleOffset (tz ndt)).map fun off => DateTimeLocal.mk ndt off

/-! ## `LOG_REGEX` — `^(?P<level>INFO|WARN|ERROR|DEBUG|TRACE)\s*\[(?P<timestamp>.+?)\]\s+(?P<message>.*)`

The `regex` crate uses leftmost-first (preference-order) semantics.  The
pattern is anchored; the five keywords start with five distinct letters, so
the alternation is deterministic; `\s*` is a maximal whitespace run forced to
be followed by `[`; the lazy `.+?` takes the *shortest* non-empty run of
non-newline characters whose following `]` is itself followed by at least one
whitespace character (a `]` not followed by whitespace is re-consumed by the
lazy group on backtracking); `\s+` then takes the maximal whitespace run and
`.*` the maximal run of non-newline characters (the trailing `\n` of a
`read_line` line is never part of `message`). -/

def levelKeywords : List (List Char) :=
  [['I', 'N', 'F', 'O'], ['W', 'A', 'R', 'N'], ['E', 'R', 'R', 'O', 'R'],
   ['D', 'E', 'B', 'U', 'G'], ['T', 'R', 'A', 'C', 'E']]

/-- Match a literal keyword as a prefix, returning the remainder. -/
def dropLit : List Char → List Char → Option (List Char)
  | [], s => some s
  | k :: ks, c :: s => if c = k then dropLit ks s else none
  | _ :: _, [] => none

/-- The anchored alternation `(INFO|WARN|ERROR|DEBUG|TRACE)`, first
alternative preferred. -/
def matchLevel (s : List Char) : Option (List Char × List Char) :=
  (levelKeywords.filterMap (fun kw => (dropLit kw s).map (fun r => (kw, r)))).head?

/-- The continuation `\s+(?P<message>.*)` after the closing `]`: at least one
whitespace character, then the message is the maximal non-newline run after
the maximal whitespace run. -/
def matchTail (rest : List Char) : Option (List Char) :=
  match rest with
  | [] => none
  | c :: _ =>
    if isRustSpace c then
      some ((rest.dropWhile isRustSpace).takeWhile (fun x => x ≠ '\n'))
    else none

/-- The lazy search for the closing `]` of `\[(.+?)\]` followed by a
successful continuation; `acc` holds the (reversed) characters the lazy group
has consumed so far.  `.` never matches a newline. -/
def findClose : List Char → List Char → Option (List Char × List Char)
  | _, [] => none
  | acc, c :: rest =>
    if c = ']' then
      if acc = [] then findClose (c :: acc) rest
      else
        ((matchTail rest).map (fun msg => some (acc.reverse, msg))).getD
          (findClose (c :: acc) rest)
    else if c = '\n' then none
    else findClose (c :: acc) rest

/-- `LOG_REGEX.captures(line)`, returning the three named captures
`(level, timestamp, message)` — the classifier of spec §4.1. -/
def classify (line : List Char) : Option (List Char × List Char × List Char) :=
  (matchLevel line).bind fun lp =>
    if ((lp.2.dropWhile isRustSpace).head? = some '[') then
      (findClose [] (lp.2.dropWhile isRustSpace).tail).map
        (fun p => (lp.1, p.1, p.2))
    else none

/-! ## `KV_REGEX` — `(?P<key>\w+)=(?P<value>"[^"]*"|\S+)`

`captures_iter` yields successive non-overlapping leftmost matches.  At a
given start, `\w+` must be the maximal word run (a shorter run would leave a
word character where `=` is required), and the alternation prefers the quoted
branch, which succeeds exactly when the value starts with `"` and a second
`"` occurs later ( `[^"]*` is free to cross whitespace); otherwise `\S+`
takes the maximal non-whitespace run, which must be non-empty. -/

/-- Match the value alternation `"[^"]*"|\S+` at the current position,
returning (captured text, remainder). -/
def matchValue : List Char → Option (List Char × List Char)
  | [] => none
  | c :: rest =>
    if c = '"' then
      if (rest.dropWhile (fun x => x ≠ '"')).head? = some '"' then
        some ('"' :: rest.takeWhile (fun x => x ≠ '"') ++ ['"'],
              (rest.dropWhile (fun x => x ≠ '"')).tail)
      else
        some ('"' :: rest.takeWhile (fun x => !isRustSpace x),
              rest.dropWhile (fun x => !isRustSpace x))
    else
      if isRustSpace c then none
      else some ((c :: rest).takeWhile (fun x => !isRustSpace x),
                 (c :: rest).dropWhile (fun x => !isRustSpace x))

/-- Try to match the whole `KV_REGEX` starting exactly here:
key (maximal non-empty word run), `=`, value. -/
def matchKVAt (s : List Char) : Option (List Char × List Char × List Char) :=
  if s.takeWhile isWordChar = [] then none
  else if (s.dropWhile isWordChar).head? = some '=' then
    match matchValue (s.dropWhile isWordChar).tail with
    | some (v, rest₂) => some (s.takeWhile isWordChar, v, rest₂)
    | none => none
  else none

/-- Fuel-indexed scan loop of `KV_REGEX.captures_iter`: at each position try
the pattern; on a match resume after the consumed span, otherwise advance one
character. -/
def kvScanAux : Nat → List Char → List (List Char × List Char)
  | 0, _ => []
  | fuel + 1, s =>
    match matchKVAt s with
    | some (k, v, rest) => (k, v) :: kvScanAux fuel rest
    | none =>
      match s with
      | [] => []
      | _ :: rest => kvScanAux fuel rest

/-- `KV_REGEX.captures_iter(message)`: the (key, raw value) capture pairs of
the successive non-overlapping leftmost matches, left to right. -/
def kvScan (s : List Char) : List (List Char × List Char) :=
  kvScanAux (s.length + 1) s

/-- Rust `str::trim_matches('"')`: strip every leading and trailing `"`. -/
def trimQuotes (v : List Char) : List Char :=
  ((v.dropWhile (fun c => c = '"')).reverse.dropWhile (fun c => c = '"')).reverse

/-- The unquoting step of `parse_line` (main.rs lines 158–161): if the
captured value both starts and ends with `"`, strip quotes with
`trim_matches`; otherwise keep it unchanged. -/
def unquote (v : List Char) : List Char :=
  if v.head? = some '"' ∧ v.getLast? = some '"' then trimQuotes v else v

/-- `HashMap::insert` on the association-list model: the new binding replaces
any existing binding of the same key (iteration order of a `HashMap` is not
significant; this list carries one binding per key). -/
def insertKV (m : List (List Char × List Char)) (k v : List Char) :
    List (List Char × List Char) :=
  m.filter (fun p => p.1 ≠ k) ++ [(k, v)]

/-- The attribute extractor (main.rs lines 155–163): scan the message with
`KV_REGEX`, unquote each captured value, insert into the map. -/
def extract (msg : List Char) : List (List Char × List Char) :=
  (kvScan msg).foldl (fun m p => insertKV m p.1 (unquote p.2)) []

/-- Map lookup (`HashMap` observation). -/
def getAttr (m : List (List Char × List Char)) (k : List Char) : Option (List Char) :=
  (m.find? (fun p => p.1 = k)).map (fun p => p.2)

/-! ## The line processor and the run driver -/

/-- `LogEntry` (main.rs lines 19–25). -/
structure LogEntry where
  level : List Char
  timestamp : DateTimeLocal
  message : List Char
  details : List (List Char × List Char)
  deriving DecidableEq, Repr

/-- `parse_line` (main.rs lines 147–174): classify, reconstruct the
timestamp, extract attributes, assemble the record — or `None`. -/
def parse_line (tz : Tz) (line : List Char) (year : Int) : Option LogEntry :=
  (classify line).bind fun t =>
    (reconstruct tz t.2.1 year).map fun dt =>
      LogEntry.mk t.1 dt t.2.2 (extract t.2.2)

/-- One iteration of the `process_log_file` loop: count the line, and on a
successful parse count it valid and append the emitted record. -/
def processStep (tz : Tz) (year : Int) (st : Nat × Nat × List LogEntry)
    (line : List Char) : Nat × Nat × List LogEntry :=
  match parse_line tz line year with
  | some e => (st.1 + 1, st.2.1 + 1, st.2.2 ++ [e])
  | none => (st.1 + 1, st.2.1, st.2.2)

/-- `process_log_file` (main.rs lines 109–144), as a function from the list
of lines to (total lines, valid lines, emitted records in order). -/
def process_log_file (tz : Tz) (year : Int) (lines : List (List Char)) :
    Nat × Nat × List LogEntry :=
  lines.foldl (processStep tz year) (0, 0, [])

/-- `BufRead::read_line` iterated to EOF: each returned chunk keeps its
terminating `'\n'`; a final unterminated chunk is still returned; an empty
file yields no chunks. -/
def splitLinesAux : List Char → List Char → List (List Char)
  | cur, [] => if cur = [] then [] else [cur.reverse]
  | cur, c :: rest =>
    if c = '\n' then (c :: cur).reverse :: splitLinesAux [] rest
    else splitLinesAux (c :: cur) rest

def splitLines (content : List Char) : List (List Char) := splitLinesAux [] content

/-- The observable outcome of `run` (main.rs lines 67–106) on an opened
file: either the empty-file early return (distinct diagnostic, `Ok(())`), or
a completed run with its summary counters and invalid percentage. -/
inductive RunOutcome where
  | emptyFile : RunOutcome
  | completed (total valid : Nat) (invalidPercentage : ℚ) (records : List LogEntry) :
      RunOutcome
  deriving DecidableEq

/-- `run` after path validation and `File::open` succeed: the zero-byte check
(lines 81–85) short-circuits before any processing; otherwise the file is
processed and the summary computed, with
`invalid_percentage = invalid / total * 100` (line 91). -/
def run (tz : Tz) (year : Int) (content : List Char) : RunOutcome :=
  if content = [] then RunOutcome.emptyFile
  else
    RunOutcome.completed
      (process_log_file tz year (splitLines content)).1
      (process_log_file tz year (splitLines content)).2.1
      ((((process_log_file tz year (splitLines content)).1 -
         (process_log_file tz year (splitLines content)).2.1 : Nat) : ℚ) /
        ((process_log_file tz year (splitLines content)).1 : ℚ) * 100)
      (process_log_file tz year (splitLines content)).2.2

/-! ## Auxiliary definitions for the verification statements -/

/-- A time zone assigning one fixed offset to every local date-time (such as
UTC): every local time resolves uniquely. -/
def tzUTC : Tz := fun _ => LocalResult.single 0

/-- Two ASCII digits, as in the spec's strict `MM-DD|HH:MM:SS` reading. -/
def twoDigits (r : List Char) : Option (Nat × List Char) :=
  match r with
  | a :: b :: rest =>
    if isDigitChar a ∧ isDigitChar b then
      some ((a.toNat - 48) * 10 + (b.toNat - 48), rest)
    else none
  | _ => none

/-- The optional fractional suffix of the spec's grammar: nothing, or `.`
followed by at least one digit; returns the digit list. -/
def fracOk (r : List Char) : Option (List Char) :=
  if r = [] then some []
  else if r.head? = some '.' ∧ r.tail ≠ [] ∧ r.tail.all isDigitChar then
    some r.tail
  else none

/-- Modelled from the spec's words (§4.2): the strict raw-timestamp grammar
`MM-DD|HH:MM:SS` with an optional fractional suffix `.f+`; returns the
month/day/hour/minute/second values and the fraction digits.  Used only to
state hypotheses and counterexamples of the claims. -/
def specShapeStrict (raw : List Char) : Option (Nat × Nat × Nat × Nat × Nat × List Char) := do
  let (mo, r) ← twoDigits raw
  let r ← parseLit '-' r
  let (d, r) ← twoDigits r
  let r ← parseLit '|' r
  let (h, r) ← twoDigits r
  let r ← parseLit ':' r
  let (mi, r) ← twoDigits r
  let r ← parseLit ':' r
  let (s, r) ← twoDigits r
  let fr ← fracOk r
  pure (mo, d, h, mi, s, fr)

/-- The nanosecond value chrono assigns to a digit-list fraction: the first
nine digits, scaled. -/
def fracNano (fr : List Char) : Nat :=
  digitsVal (fr.take 9) * 10 ^ (9 - (fr.take 9).length)

/-- Validity of a resolved naive date-time, in calendar terms: fields in
range (allowing the chrono leap-second representation in `nano`). -/
def ValidNaive (dt : NaiveDT) : Prop :=
  -262144 ≤ dt.year ∧ dt.year ≤ 262143 ∧ 1 ≤ dt.month ∧ dt.month ≤ 12 ∧
  1 ≤ dt.day ∧ dt.day ≤ daysInMonth dt.year dt.month ∧ dt.hour ≤ 23 ∧
  dt.minute ≤ 59 ∧ dt.second ≤ 59 ∧ dt.nano ≤ 1999999999

/-- Modelled from the spec's words (C3's grammar reading): same as
`classify`, except that the timestamp capture is read as “any characters
except `]`” — i.e. it always ends at the *first* `]`, with no provision for a
`]` that is not followed by whitespace.  Stated as a second definition to
compare with the source's backtracking behaviour. -/
def classifySpec (line : List Char) : Option (List Char × List Char × List Char) :=
  match matchLevel line with
  | none => none
  | some (lvl, r₁) =>
    if (r₁.dropWhile isRustSpace).head? = some '[' then
      if (r₁.dropWhile isRustSpace).tail.takeWhile (fun c => c ≠ ']') = [] then none
      else
        match ((r₁.dropWhile isRustSpace).tail.dropWhile (fun c => c ≠ ']')) with
        | ']' :: rest =>
          (matchTail rest).map
            (fun msg => (lvl, (r₁.dropWhile isRustSpace).tail.takeWhile (fun c => c ≠ ']'), msg))
        | _ => none
    else none

/-- The exact language of `LOG_REGEX` matches, with the backtracking-aware
timestamp capture: the line is a level keyword, a whitespace run, `[`, a
non-empty timestamp of non-newline characters, `]`, at least one whitespace
character, and the message (the maximal non-newline run after the maximal
whitespace run); every `]` inside the timestamp is immediately followed by a
non-whitespace character — which is exactly why the lazy `.+?` had to extend
past it. -/
def ClassifiedShape (line lvl ts msg : List Char) : Prop :=
  lvl ∈ levelKeywords ∧
  ∃ ws rest,
    line = lvl ++ ws ++ '[' :: ts ++ ']' :: rest ∧
    (∀ c ∈ ws, isRustSpace c = true) ∧
    ts ≠ [] ∧ (∀ c ∈ ts, c ≠ '\n') ∧
    (∃ c cs, rest = c :: cs ∧ isRustSpace c = true) ∧
    msg = (rest.dropWhile isRustSpace).takeWhile (fun x => x ≠ '\n') ∧
    (∀ a b, ts = a ++ ']' :: b → a ≠ [] →
      isRustSpace ((b ++ ']' :: rest).headI) = false)

/-! ## The unquoting step versus the spec's description -/

/-- Modelled from the spec's words (§4.3, Unquoting): “a quoted value that
starts and ends with `"` has exactly one leading and one trailing quote
character removed; no escape-sequence interpretation inside quotes” — i.e.
drop the first and last character; all other values unchanged.  Stated as a
second definition to compare with the source's `trim_matches`-based
`unquote`. -/
def specUnquote (v : List Char) : List Char :=
  if v.head? = some '"' ∧ v.getLast? = some '"' then (v.drop 1).dropLast else v

theorem not_space_of_digit {c : Char} (h : isDigitChar c = true) :
    isRustSpace c = false := by
  simp only [isDigitChar, Bool.and_eq_true, decide_eq_true_eq] at h
  simp only [isRustSpace, Bool.or_eq_false_iff, Bool.and_eq_false_iff,
    decide_eq_false_iff_not, not_le, beq_eq_false_iff_ne, ne_eq]
  omega

theorem not_space_of_word {c : Char} (h : isWordChar c = true) :
    isRustSpace c = false := by
  simp only [isWordChar, Bool.or_eq_true, Bool.and_eq_true, decide_eq_true_eq,
    beq_iff_eq] at h
  simp only [isRustSpace, Bool.or_eq_false_iff, Bool.and_eq_false_iff,
    decide_eq_false_iff_not, not_le, beq_eq_false_iff_ne, ne_eq]
  omega

theorem natDecimalAux_fuel : ∀ f₁ f₂ n, n < f₁ → n < f₂ →
    natDecimalAux f₁ n = natDecimalAux f₂ n := by
  intro f₁
  induction f₁ with
  | zero => intro f₂ n h; omega
  | succ f ih =>
    intro f₂ n h₁ h₂
    match f₂, h₂ with
    | f₂ + 1, _ =>
      simp only [natDecimalAux]
      by_cases h10 : n < 10
      · simp [h10]
      · simp only [h10, if_false]
        rw [ih f₂ (n / 10) (by omega) (by omega)]

theorem natDecimal_eq (n : Nat) :
    natDecimal n = if n < 10 then [digitChar n]
                   else natDecimal (n / 10) ++ [digitChar (n % 10)] := by
  unfold natDecimal
  rw [natDecimalAux]
  by_cases h10 : n < 10
  · simp [h10]
  · simp only [h10, if_false]
    rw [natDecimalAux_fuel n (n / 10 + 1) (n / 10) (by omega) (by omega)]

theorem digitChar_toNat {n : Nat} (h : n < 10) : (digitChar n).toNat = 48 + n := by
  interval_cases n <;> decide

theorem digitChar_isDigit {n : Nat} (h : n < 10) : isDigitChar (digitChar n) = true := by
  interval_cases n <;> decide

theorem natDecimal_ne_nil (n : Nat) : natDecimal n ≠ [] := by
  rw [natDecimal_eq]
  by_cases h : n < 10 <;> simp [h]

theorem natDecimal_all_digits (n : Nat) :
    ∀ c ∈ natDecimal n, isDigitChar c = true := by
  induction n using Nat.strong_induction_on with
  | _ n ih =>
    rw [natDecimal_eq]
    by_cases h : n < 10
    · simp only [h, if_true, List.mem_singleton]
      rintro c rfl
      exact digitChar_isDigit h
    · simp only [h, if_false, List.mem_append, List.mem_singleton]
      rintro c (hc | rfl)
      · exact ih (n / 10) (by omega) c hc
      · exact digitChar_isDigit (by omega)

theorem digitsVal_append_singleton (l : List Char) (c : Char) :
    digitsVal (l ++ [c]) = digitsVal l * 10 + (c.toNat - 48) := by
  simp [digitsVal, List.foldl_append]

theorem digitsVal_natDecimal (n : Nat) : digitsVal (natDecimal n) = n := by
  induction n using Nat.strong_induction_on with
  | _ n ih =>
    rw [natDecimal_eq]
    by_cases h : n < 10
    · simp only [h, if_true]
      simp [digitsVal, digitChar_toNat h]
    · simp only [h, if_false]
      rw [digitsVal_append_singleton, ih (n / 10) (by omega),
        digitChar_toNat (by omega)]
      omega

theorem natDecimal_length_le {n k : Nat} (hk : 0 < k) (h : n < 10 ^ k) :
    (natDecimal n).length ≤ k := by
  induction n using Nat.strong_induction_on generalizing k with
  | _ n ih =>
    rw [natDecimal_eq]
    by_cases h10 : n < 10
    · simp only [h10, if_true, List.length_cons, List.length_nil]
      omega
    · simp only [h10, if_false, List.length_append, List.length_singleton]
      have hk2 : 2 ≤ k := by
        by_contra hcon
        have : k = 1 := by omega
        subst this; simp at h; omega
      have := ih (n / 10) (by omega) (k := k - 1) (by omega)
        (by
          have : 10 ^ k = 10 ^ (k - 1) * 10 := by
            rw [← pow_succ]; congr 1; omega
          omega)
      omega

theorem cons_tail_of_head? {l : List Char} {c : Char} (h : l.head? = some c) :
    c :: l.tail = l :=
  List.cons_head?_tail (by simp [Option.mem_def, h])

theorem matchValue_decomp {s v r : List Char} (h : matchValue s = some (v, r)) :
    s = v ++ r ∧ v ≠ [] := by
  match s with
  | [] => simp [matchValue] at h
  | c :: rest =>
    simp only [matchValue] at h
    by_cases hq : c = '"'
    · subst hq
      simp only [if_true, reduceIte] at h
      by_cases hcl : (rest.dropWhile (fun x => x ≠ '"')).head? = some '"'
      · simp only [hcl, if_true, reduceIte, Option.some.injEq, Prod.mk.injEq] at h
        obtain ⟨hv, hr⟩ := h
        subst hv; subst hr
        refine ⟨?_, by simp⟩
        have hsplit := List.takeWhile_append_dropWhile (fun x => decide (x ≠ '"')) rest
        have hdw := cons_tail_of_head? hcl
        simp only [List.cons_append, List.append_assoc, List.singleton_append,
          List.cons.injEq, List.nil_append, true_and]
        rw [hdw, hsplit]
      · simp only [hcl, if_false, reduceIte, Option.some.injEq, Prod.mk.injEq] at h
        obtain ⟨hv, hr⟩ := h
        subst hv; subst hr
        refine ⟨?_, by simp⟩
        simp only [List.cons_append, List.cons.injEq, true_and]
        exact (List.takeWhile_append_dropWhile (fun x => !isRustSpace x) rest).symm
    · simp only [hq, if_false, reduceIte] at h
      by_cases hsp : isRustSpace c
      · simp [hsp] at h
      · simp only [hsp, Bool.false_eq_true, if_false, reduceIte,
          Option.some.injEq, Prod.mk.injEq] at h
        obtain ⟨hv, hr⟩ := h
        subst hv; subst hr
        refine ⟨(List.takeWhile_append_dropWhile _ _).symm, ?_⟩
        simp [List.takeWhile_cons, hsp]

theorem matchKVAt_decomp {s k v r : List Char} (h : matchKVAt s = some (k, v, r)) :
    s = k ++ '=' :: (v ++ r) ∧ k ≠ [] ∧ v ≠ [] := by
  simp only [matchKVAt] at h
  by_cases hk : s.takeWhile isWordChar = []
  · simp [hk] at h
  · simp only [hk, if_false, reduceIte] at h
    by_cases he : (s.dropWhile isWordChar).head? = some '='
    · simp only [he, if_true, reduceIte] at h
      cases hmv : matchValue (s.dropWhile isWordChar).tail with
      | some p =>
        obtain ⟨v', rest₂⟩ := p
        rw [hmv] at h
        simp only [Option.some.injEq, Prod.mk.injEq] at h
        obtain ⟨h1, h2, h3⟩ := h
        subst h1; subst h2; subst h3
        have hd := matchValue_decomp hmv
        refine ⟨?_, hk, hd.2⟩
        conv_lhs => rw [← List.takeWhile_append_dropWhile isWordChar s]
        rw [← cons_tail_of_head? he, hd.1]
      | none => rw [hmv] at h; simp at h
    · simp [he] at h

theorem matchKVAt_shrinks {s k v r : List Char} (h : matchKVAt s = some (k, v, r)) :
    r.length < s.length := by
  obtain ⟨hs, hk, hv⟩ := matchKVAt_decomp h
  rw [hs]
  simp only [List.length_append, List.length_cons]
  have : 0 < k.length := List.length_pos.mpr hk
  have : 0 < v.length := List.length_pos.mpr hv
  omega

theorem kvScanAux_succ_match {fuel : Nat} {s k v rest : List Char}
    (h : matchKVAt s = some (k, v, rest)) :
    kvScanAux (fuel + 1) s = (k, v) :: kvScanAux fuel rest := by
  simp [kvScanAux, h]

theorem kvScanAux_succ_skip {fuel : Nat} {c : Char} {rest : List Char}
    (h : matchKVAt (c :: rest) = none) :
    kvScanAux (fuel + 1) (c :: rest) = kvScanAux fuel rest := by
  simp [kvScanAux, h]

theorem kvScanAux_fuel : ∀ f₁ f₂ s, s.length < f₁ → s.length < f₂ →
    kvScanAux f₁ s = kvScanAux f₂ s := by
  intro f₁
  induction f₁ with
  | zero => intro f₂ s h; omega
  | succ f ih =>
    intro f₂ s h₁ h₂
    obtain ⟨g, rfl⟩ : ∃ g, f₂ = g + 1 := ⟨f₂ - 1, by omega⟩
    cases hm : matchKVAt s with
    | some t =>
      obtain ⟨k, v, rest⟩ := t
      have hlt := matchKVAt_shrinks hm
      rw [kvScanAux_succ_match hm, kvScanAux_succ_match hm,
        ih g rest (by omega) (by omega)]
    | none =>
      match s with
      | [] => simp [kvScanAux, hm]
      | c :: rest =>
        simp only [List.length_cons] at h₁ h₂
        rw [kvScanAux_succ_skip hm, kvScanAux_succ_skip hm,
          ih g rest (by omega) (by omega)]

theorem kvScan_nil : kvScan [] = [] := rfl

theorem kvScan_match {s k v rest : List Char} (h : matchKVAt s = some (k, v, rest)) :
    kvScan s = (k, v) :: kvScan rest := by
  have hlt := matchKVAt_shrinks h
  unfold kvScan
  rw [kvScanAux_succ_match h,
    kvScanAux_fuel s.length (rest.length + 1) rest (by omega) (by omega)]

theorem kvScan_skip {c : Char} {rest : List Char} (h : matchKVAt (c :: rest) = none) :
    kvScan (c :: rest) = kvScan rest := by
  unfold kvScan
  rw [kvScanAux_succ_skip h]
  simp only [List.length_cons]

/-! ## Map algebra for the attribute extractor -/

theorem not_word_of_space {c : Char} (h : isRustSpace c = true) :
    isWordChar c = false := by
  by_cases hw : isWordChar c = true
  · rw [not_space_of_word hw] at h; cases h
  · simpa using hw

theorem dropWhile_all_false {p : Char → Bool} {l : List Char}
    (h : ∀ x ∈ l, p x = false) : l.dropWhile p = l := by
  induction l with
  | nil => rfl
  | cons a t _ =>
    rw [List.dropWhile_cons_of_neg (by simp [h a (List.mem_cons_self a t)])]

theorem takeWhile_nil_of_all_false {p : Char → Bool} {l : List Char}
    (h : ∀ x ∈ l, p x = false) : l.takeWhile p = [] := by
  cases l with
  | nil => rfl
  | cons a t =>
    rw [List.takeWhile_cons_of_neg (by simp [h a (List.mem_cons_self a t)])]

theorem takeWhile_append_all {p : Char → Bool} {l r : List Char}
    (h : ∀ x ∈ l, p x = true) : (l ++ r).takeWhile p = l ++ r.takeWhile p := by
  induction l with
  | nil => simp
  | cons a t ih =>
    rw [List.cons_append, List.takeWhile_cons_of_pos (h a (List.mem_cons_self a t)),
      List.cons_append, ih (fun x hx => h x (List.mem_cons_of_mem a hx))]

theorem dropWhile_append_all {p : Char → Bool} {l r : List Char}
    (h : ∀ x ∈ l, p x = true) : (l ++ r).dropWhile p = r.dropWhile p := by
  induction l with
  | nil => simp
  | cons a t ih =>
    rw [List.cons_append, List.dropWhile_cons_of_pos (h a (List.mem_cons_self a t))]
    exact ih (fun x hx => h x (List.mem_cons_of_mem a hx))

theorem getAttr_nil (k : List Char) : getAttr [] k = none := rfl

theorem getAttr_cons (q : List Char × List Char) (m : List (List Char × List Char))
    (k : List Char) :
    getAttr (q :: m) k = if q.1 = k then some q.2 else getAttr m k := by
  unfold getAttr
  by_cases h : q.1 = k
  · rw [List.find?_cons_of_pos _ (by simp [h]), if_pos h]
    simp
  · rw [List.find?_cons_of_neg _ (by simp [h]), if_neg h]

theorem getAttr_append (m₁ m₂ : List (List Char × List Char)) (k : List Char) :
    getAttr (m₁ ++ m₂) k = (getAttr m₁ k).or (getAttr m₂ k) := by
  induction m₁ with
  | nil => simp [getAttr_nil]
  | cons q m ih =>
    rw [List.cons_append, getAttr_cons, getAttr_cons]
    by_cases h : q.1 = k
    · simp [h]
    · simp [h, ih]

theorem getAttr_filter_ne {m : List (List Char × List Char)} {k' k : List Char}
    (h : k ≠ k') :
    getAttr (m.filter (fun p => p.1 ≠ k')) k = getAttr m k := by
  induction m with
  | nil => rfl
  | cons q m ih =>
    by_cases hq : q.1 = k'
    · rw [List.filter_cons, if_neg (by simp [hq]), ih, getAttr_cons,
        if_neg (by rw [hq]; exact fun hh => h hh.symm)]
    · rw [List.filter_cons, if_pos (by simp [hq]), getAttr_cons, getAttr_cons, ih]

theorem getAttr_filter_self (m : List (List Char × List Char)) (k : List Char) :
    getAttr (m.filter (fun p => p.1 ≠ k)) k = none := by
  induction m with
  | nil => rfl
  | cons q m ih =>
    by_cases hq : q.1 = k
    · rw [List.filter_cons, if_neg (by simp [hq])]
      exact ih
    · rw [List.filter_cons, if_pos (by simp [hq]), getAttr_cons, if_neg hq, ih]

theorem getAttr_insertKV (m : List (List Char × List Char)) (k' v' k : List Char) :
    getAttr (insertKV m k' v') k = if k = k' then some v' else getAttr m k := by
  unfold insertKV
  rw [getAttr_append]
  by_cases h : k = k'
  · subst h
    rw [getAttr_filter_self, if_pos rfl]
    simp [getAttr_cons]
  · rw [getAttr_filter_ne h, if_neg h, getAttr_cons,
      if_neg (fun hh => h hh.symm), getAttr_nil]
    simp

theorem getAttr_extract_fold :
    ∀ (l acc : List (List Char × List Char)) (k : List Char),
    getAttr (l.foldl (fun m p => insertKV m p.1 (unquote p.2)) acc) k =
      ((l.reverse.find? (fun p => p.1 = k)).map (fun p => unquote p.2)).or
        (getAttr acc k) := by
  intro l
  induction l with
  | nil => intro acc k; simp
  | cons q l ih =>
    intro acc k
    rw [List.foldl_cons, ih, List.reverse_cons, List.find?_append]
    cases hfind : l.reverse.find? (fun p => p.1 = k) with
    | some x => simp [hfind]
    | none =>
      rw [getAttr_insertKV]
      by_cases h : q.1 = k
      · rw [List.find?_cons_of_pos _ (by simp [h]), if_pos h.symm]
        simp
      · rw [List.find?_cons_of_neg _ (by simp [h]), if_neg (fun hh => h hh.symm)]
        simp

theorem getAttr_extract (msg k : List Char) :
    getAttr (extract msg) k =
      ((kvScan msg).reverse.find? (fun p => p.1 = k)).map (fun p => unquote p.2) := by
  rw [extract, getAttr_extract_fold, getAttr_nil]
  simp

theorem dropWhile_head_false {p : Char → Bool} {l : List Char} {c : Char}
    {cs : List Char} (h : l.dropWhile p = c :: cs) : p c = false := by
  have := List.head?_dropWhile_not p l
  rw [h] at this
  exact this

theorem trimQuotes_wrap {tw : List Char} (h : ∀ x ∈ tw, x ≠ '"') :
    trimQuotes ('"' :: tw ++ ['"']) = tw := by
  unfold trimQuotes
  have h0 : List.dropWhile (fun c => decide (c = '"')) (('"' :: tw) ++ ['"']) =
      List.dropWhile (fun c => decide (c = '"')) (tw ++ ['"']) := by
    rw [List.cons_append]
    rw [List.dropWhile_cons_of_pos (by simp)]
  rw [h0]
  cases tw with
  | nil => rfl
  | cons t tw' =>
    have h1 : List.dropWhile (fun c => decide (c = '"')) ((t :: tw') ++ ['"']) =
        (t :: tw') ++ ['"'] := by
      rw [List.cons_append]
      rw [List.dropWhile_cons_of_neg (by simp [h t (List.mem_cons_self t tw')])]
    rw [h1, List.reverse_append, List.reverse_cons, List.reverse_nil,
      List.nil_append, List.singleton_append]
    have h2 : List.dropWhile (fun c => decide (c = '"')) ('"' :: (t :: tw').reverse) =
        List.dropWhile (fun c => decide (c = '"')) (t :: tw').reverse := by
      rw [List.dropWhile_cons_of_pos (by simp)]
    rw [h2, dropWhile_all_false (fun x hx => by
        simp [h x (List.mem_reverse.mp hx)]),
      List.reverse_reverse]

theorem unquote_specUnquote_wrap {tw : List Char} (h : ∀ x ∈ tw, x ≠ '"') :
    unquote ('"' :: tw ++ ['"']) = specUnquote ('"' :: tw ++ ['"']) := by
  have hlast : ('"' :: tw ++ ['"']).getLast? = some '"' := List.getLast?_concat _
  have hhead : ('"' :: tw ++ ['"']).head? = some '"' := by
    rw [List.cons_append, List.head?_cons]
  have hcond : ('"' :: tw ++ ['"']).head? = some '"' ∧
      ('"' :: tw ++ ['"']).getLast? = some '"' := ⟨hhead, hlast⟩
  rw [unquote, if_pos hcond, specUnquote, if_pos hcond, trimQuotes_wrap h,
    List.cons_append, List.drop_one, List.tail_cons, List.dropLast_concat]

theorem unquote_specUnquote_of_head_ne {v : List Char} (h : v.head? ≠ some '"') :
    unquote v = specUnquote v := by
  rw [unquote, if_neg (fun hc => h hc.1), specUnquote, if_neg (fun hc => h hc.1)]

theorem matchValue_unquote {s v r : List Char} (h : matchValue s = some (v, r)) :
    unquote v = specUnquote v := by
  match s with
  | [] => simp [matchValue] at h
  | c :: rest =>
    simp only [matchValue] at h
    by_cases hq : c = '"'
    · subst hq
      simp only [if_true, reduceIte] at h
      by_cases hcl : (rest.dropWhile (fun x => x ≠ '"')).head? = some '"'
      · simp only [hcl, if_true, reduceIte, Option.some.injEq, Prod.mk.injEq] at h
        obtain ⟨hv, _⟩ := h
        subst hv
        exact unquote_specUnquote_wrap (fun x hx => by
          have := List.mem_takeWhile_imp hx
          simpa using this)
      · simp only [hcl, if_false, reduceIte, Option.some.injEq, Prod.mk.injEq] at h
        obtain ⟨hv, _⟩ := h
        subst hv
        have hnoq : ∀ x ∈ rest, x ≠ '"' := by
          have hdw : rest.dropWhile (fun x => x ≠ '"') = [] := by
            cases hd : rest.dropWhile (fun x => x ≠ '"') with
            | nil => rfl
            | cons y ys =>
              have hy := dropWhile_head_false hd
              simp only [decide_eq_false_iff_not, not_not] at hy
              subst hy
              exact absurd (by rw [hd]; rfl) hcl
          intro x hx
          have : x ∈ rest.takeWhile (fun y => y ≠ '"') := by
            have hsplit := List.takeWhile_append_dropWhile
              (fun y => decide (y ≠ '"')) rest
            rw [hdw, List.append_nil] at hsplit
            rw [hsplit]
            exact hx
          simpa using List.mem_takeWhile_imp this
        cases htw : rest.takeWhile (fun x => !isRustSpace x) with
        | nil => decide
        | cons t tw' =>
          have hlast_ne : ('"' :: t :: tw').getLast? ≠ some '"' := by
            rw [List.getLast?_cons_cons]
            intro hc
            have hmem : '"' ∈ t :: tw' := List.mem_of_mem_getLast? (by
              simp [Option.mem_def, hc])
            have : '"' ∈ rest := by
              have := List.takeWhile_sublist (l := rest)
                (p := fun x => !isRustSpace x)
              rw [htw] at this
              exact this.subset hmem
            exact hnoq '"' this rfl
          have hcond : ¬(('"' :: t :: tw').head? = some '"' ∧
              ('"' :: t :: tw').getLast? = some '"') := fun hc => hlast_ne hc.2
          rw [unquote, if_neg hcond, specUnquote, if_neg hcond]
    · simp only [hq, if_false, reduceIte] at h
      by_cases hsp : isRustSpace c
      · simp [hsp] at h
      · simp only [hsp, Bool.false_eq_true, if_false, reduceIte,
          Option.some.injEq, Prod.mk.injEq] at h
        obtain ⟨hv, _⟩ := h
        subst hv
        refine unquote_specUnquote_of_head_ne ?_
        rw [List.takeWhile_cons_of_pos (by simp [hsp]), List.head?_cons]
        simp [hq]

theorem matchKVAt_unquote {s k v r : List Char} (h : matchKVAt s = some (k, v, r)) :
    unquote v = specUnquote v := by
  simp only [matchKVAt] at h
  by_cases hk : s.takeWhile isWordChar = []
  · simp [hk] at h
  · simp only [hk, if_false, reduceIte] at h
    by_cases he : (s.dropWhile isWordChar).head? = some '='
    · simp only [he, if_true, reduceIte] at h
      cases hmv : matchValue (s.dropWhile isWordChar).tail with
      | some p =>
        obtain ⟨v', rest₂⟩ := p
        rw [hmv] at h
        simp only [Option.some.injEq, Prod.mk.injEq] at h
        obtain ⟨_, h2, _⟩ := h
        subst h2
        exact matchValue_unquote hmv
      | none => rw [hmv] at h; simp at h
    · simp [he] at h

theorem kvScan_unquote : ∀ (n : Nat) (msg : List Char), msg.length ≤ n →
    ∀ p ∈ kvScan msg, unquote p.2 = specUnquote p.2 := by
  intro n
  induction n with
  | zero =>
    intro msg hlen p hp
    have : msg = [] := List.length_eq_zero.mp (Nat.le_zero.mp hlen)
    subst this
    rw [kvScan_nil] at hp
    cases hp
  | succ n ih =>
    intro msg hlen p hp
    cases hm : matchKVAt msg with
    | some t =>
      obtain ⟨k, v, rest⟩ := t
      rw [kvScan_match hm] at hp
      rcases List.mem_cons.mp hp with rfl | hp'
      · exact matchKVAt_unquote hm
      · have hlt := matchKVAt_shrinks hm
        exact ih rest (by omega) p hp'
    | none =>
      cases msg with
      | nil => rw [kvScan_nil] at hp; cases hp
      | cons c rest =>
        rw [kvScan_skip hm] at hp
        simp only [List.length_cons] at hlen
        exact ih rest (by omega) p hp

theorem foldl_insert_congr :
    ∀ (l acc : List (List Char × List Char)),
    (∀ p ∈ l, unquote p.2 = specUnquote p.2) →
    l.foldl (fun m p => insertKV m p.1 (unquote p.2)) acc =
      l.foldl (fun m p => insertKV m p.1 (specUnquote p.2)) acc := by
  intro l
  induction l with
  | nil => intro acc _; rfl
  | cons q l ih =>
    intro acc h
    rw [List.foldl_cons, List.foldl_cons, h q (List.mem_cons_self q l),
      ih _ (fun p hp => h p (List.mem_cons_of_mem q hp))]

/-! ## Whitespace-delimited token extraction (round-trip support) -/

theorem matchKVAt_nonword_head {c : Char} {t : List Char}
    (h : isWordChar c = false) : matchKVAt (c :: t) = none := by
  have h1 : (c :: t).takeWhile isWordChar = [] := by
    rw [List.takeWhile_cons_of_neg (by simp [h])]
  simp [matchKVAt, h1]

theorem kvScan_leading_space : ∀ (ws s : List Char),
    (∀ c ∈ ws, isRustSpace c = true) → kvScan (ws ++ s) = kvScan s := by
  intro ws
  induction ws with
  | nil => intro s _; rfl
  | cons w ws' ih =>
    intro s h
    rw [List.cons_append,
      kvScan_skip (matchKVAt_nonword_head
        (not_word_of_space (h w (List.mem_cons_self w ws')))),
      ih s (fun c hc => h c (List.mem_cons_of_mem w hc))]

theorem kvScan_all_space {ws : List Char} (h : ∀ c ∈ ws, isRustSpace c = true) :
    kvScan ws = [] := by
  have := kvScan_leading_space ws [] h
  rw [List.append_nil] at this
  rw [this, kvScan_nil]

theorem matchValue_token {v ws₂ : List Char}
    (hv : v ≠ []) (hvs : ∀ c ∈ v, isRustSpace c = false)
    (hvq : v.head? ≠ some '"')
    (hws : ∀ c ∈ ws₂, isRustSpace c = true) :
    matchValue (v ++ ws₂) = some (v, ws₂) := by
  cases v with
  | nil => exact absurd rfl hv
  | cons c v' =>
    have hc : ¬(c = '"') := fun hh => hvq (by rw [List.head?_cons, hh])
    have hcs : isRustSpace c = false := hvs c (List.mem_cons_self c v')
    rw [List.cons_append]
    simp only [matchValue, hc, if_false, reduceIte, hcs, Bool.false_eq_true]
    rw [← List.cons_append,
      takeWhile_append_all (fun x hx => by simp [hvs x hx]),
      takeWhile_nil_of_all_false (fun x hx => by simp [hws x hx]),
      dropWhile_append_all (fun x hx => by simp [hvs x hx]),
      dropWhile_all_false (fun x hx => by simp [hws x hx]),
      List.append_nil]

theorem matchKVAt_token {k v ws₂ : List Char}
    (hk : k ≠ []) (hkw : ∀ c ∈ k, isWordChar c = true)
    (hv : v ≠ []) (hvs : ∀ c ∈ v, isRustSpace c = false)
    (hvq : v.head? ≠ some '"')
    (hws : ∀ c ∈ ws₂, isRustSpace c = true) :
    matchKVAt (k ++ '=' :: (v ++ ws₂)) = some (k, v, ws₂) := by
  have htk : (k ++ '=' :: (v ++ ws₂)).takeWhile isWordChar = k := by
    rw [takeWhile_append_all hkw, List.takeWhile_cons_of_neg (by decide),
      List.append_nil]
  have hdk : (k ++ '=' :: (v ++ ws₂)).dropWhile isWordChar = '=' :: (v ++ ws₂) := by
    rw [dropWhile_append_all hkw, List.dropWhile_cons_of_neg (by decide)]
  unfold matchKVAt
  rw [htk, if_neg hk, hdk, List.head?_cons, if_pos rfl, List.tail_cons,
    matchValue_token hv hvs hvq hws]

theorem unquote_of_head_ne {v : List Char} (h : v.head? ≠ some '"') :
    unquote v = v := by
  rw [unquote, if_neg (fun hc => h hc.1)]

/-! ## Processing-loop lemmas -/

theorem process_foldl (tz : Tz) (year : Int) :
    ∀ (lines : List (List Char)) (t v : Nat) (out : List LogEntry),
    lines.foldl (processStep tz year) (t, v, out) =
      (t + lines.length,
       v + (lines.filterMap (fun l => parse_line tz l year)).length,
       out ++ lines.filterMap (fun l => parse_line tz l year)) := by
  intro lines
  induction lines with
  | nil => intro t v out; simp
  | cons l ls ih =>
    intro t v out
    rw [List.foldl_cons]
    cases hp : parse_line tz l year with
    | some e =>
      have hstep : processStep tz year (t, v, out) l = (t + 1, v + 1, out ++ [e]) := by
        simp [processStep, hp]
      rw [hstep, ih]
      simp only [List.filterMap_cons, hp, List.length_cons, List.length_append,
        List.length_singleton, List.append_assoc, List.singleton_append]
      refine congrArg₂ Prod.mk (by omega) (congrArg₂ Prod.mk (by omega) rfl)
    | none =>
      have hstep : processStep tz year (t, v, out) l = (t + 1, v, out) := by
        simp [processStep, hp]
      rw [hstep, ih]
      simp only [List.filterMap_cons, hp, List.length_cons]
      refine congrArg₂ Prod.mk (by omega) rfl

theorem process_log_file_eq (tz : Tz) (year : Int) (lines : List (List Char)) :
    process_log_file tz year lines =
      (lines.length,
       (lines.filterMap (fun l => parse_line tz l year)).length,
       lines.filterMap (fun l => parse_line tz l year)) := by
  unfold process_log_file
  rw [process_foldl]
  simp

theorem filterMap_length_add_none (tz : Tz) (year : Int) :
    ∀ (lines : List (List Char)),
    (lines.filterMap (fun l => parse_line tz l year)).length +
      (lines.filter (fun l => (parse_line tz l year).isNone)).length = lines.length := by
  intro lines
  induction lines with
  | nil => rfl
  | cons l ls ih =>
    cases hp : parse_line tz l year with
    | some e =>
      simp only [List.filterMap_cons, List.filter_cons, hp, Option.isNone_some,
        Bool.false_eq_true, if_false, reduceIte, List.length_cons]
      omega
    | none =>
      simp only [List.filterMap_cons, List.filter_cons, hp, Option.isNone_none,
        if_true, reduceIte, List.length_cons]
      omega

theorem splitLinesAux_ne_nil : ∀ (s cur : List Char),
    cur ≠ [] ∨ s ≠ [] → splitLinesAux cur s ≠ [] := by
  intro s
  induction s with
  | nil =>
    intro cur h
    rcases h with h | h
    · simp [splitLinesAux, h]
    · exact absurd rfl h
  | cons c rest ih =>
    intro cur _
    by_cases hc : c = '\n'
    · simp [splitLinesAux, hc]
    · simp only [splitLinesAux, hc, if_false, reduceIte]
      exact ih (c :: cur) (Or.inl (by simp))

theorem splitLines_ne_nil {content : List Char} (h : content ≠ []) :
    splitLines content ≠ [] :=
  splitLinesAux_ne_nil content [] (Or.inr h)

/-! ## Properties of timestamps produced by `reconstruct` -/

theorem dropLit_decomp : ∀ (k s r : List Char), dropLit k s = some r → s = k ++ r := by
  intro k
  induction k with
  | nil =>
    intro s r h
    simp only [dropLit, Option.some.injEq] at h
    subst h
    rfl
  | cons a k ih =>
    intro s r h
    cases s with
    | nil => simp [dropLit] at h
    | cons c t =>
      simp only [dropLit] at h
      by_cases hc : c = a
      · subst hc
        rw [if_pos rfl] at h
        rw [List.cons_append, ← ih t r h]
      · rw [if_neg hc] at h
        cases h

theorem matchLevel_decomp {s lvl r : List Char} (h : matchLevel s = some (lvl, r)) :
    lvl ∈ levelKeywords ∧ s = lvl ++ r := by
  unfold matchLevel at h
  have hmem : (lvl, r) ∈ levelKeywords.filterMap
      (fun kw => (dropLit kw s).map (fun t => (kw, t))) :=
    List.mem_of_mem_head? (by simp [Option.mem_def, h])
  obtain ⟨kw, hkw, heq⟩ := List.mem_filterMap.mp hmem
  rw [Option.map_eq_some'] at heq
  obtain ⟨t, hdrop, heq2⟩ := heq
  have hkl : kw = lvl := congrArg Prod.fst heq2
  have htr : t = r := congrArg Prod.snd heq2
  subst hkl
  subst htr
  exact ⟨hkw, dropLit_decomp kw s t hdrop⟩

theorem classify_some_inv {line lvl ts msg : List Char}
    (h : classify line = some (lvl, ts, msg)) :
    ∃ r₁, matchLevel line = some (lvl, r₁) ∧
      (r₁.dropWhile isRustSpace).head? = some '[' ∧
      findClose [] (r₁.dropWhile isRustSpace).tail = some (ts, msg) := by
  cases hml : matchLevel line with
  | none => simp [classify, hml] at h
  | some p =>
    obtain ⟨lvl', r₁⟩ := p
    by_cases hbr : (r₁.dropWhile isRustSpace).head? = some '['
    · cases hfc : findClose [] (r₁.dropWhile isRustSpace).tail with
      | none => simp [classify, hml, hbr, hfc] at h
      | some q =>
        simp only [classify, hml, Option.some_bind, hbr, if_pos, hfc,
          Option.map_some', Option.some.injEq, Prod.mk.injEq] at h
        obtain ⟨rfl, rfl, rfl⟩ := h
        exact ⟨r₁, rfl, hbr, by rw [hfc]⟩
    · simp [classify, hml, hbr] at h

theorem classify_level_mem {line lvl ts msg : List Char}
    (h : classify line = some (lvl, ts, msg)) : lvl ∈ levelKeywords := by
  obtain ⟨r₁, hml, -, -⟩ := classify_some_inv h
  exact (matchLevel_decomp hml).1

theorem foldl_digits_lt : ∀ (l : List Char) (a : Nat),
    (∀ c ∈ l, isDigitChar c = true) →
    l.foldl (fun a c => a * 10 + (c.toNat - 48)) a < (a + 1) * 10 ^ l.length := by
  intro l
  induction l with
  | nil => intro a _; simp
  | cons c t ih =>
    intro a h
    have hc : c.toNat - 48 ≤ 9 := by
      have := h c (List.mem_cons_self c t)
      simp only [isDigitChar, Bool.and_eq_true, decide_eq_true_eq] at this
      omega
    rw [List.foldl_cons]
    have h2 := ih (a * 10 + (c.toNat - 48))
      (fun x hx => h x (List.mem_cons_of_mem c hx))
    have h3 : (a * 10 + (c.toNat - 48) + 1) * 10 ^ t.length ≤
        ((a + 1) * 10) * 10 ^ t.length :=
      Nat.mul_le_mul_right _ (by omega)
    have h4 : ((a + 1) * 10) * 10 ^ t.length = (a + 1) * 10 ^ (t.length + 1) := by
      rw [pow_succ]
      ring
    rw [List.length_cons, ← h4]
    omega

theorem digitsVal_lt {l : List Char} (h : ∀ c ∈ l, isDigitChar c = true) :
    digitsVal l < 10 ^ l.length := by
  have := foldl_digits_lt l 0 h
  simpa [digitsVal] using this

theorem parseFrac_le {s : List Char} {na : Nat} {r : List Char}
    (h : parseFrac s = some (na, r)) : na ≤ 999999999 := by
  unfold parseFrac at h
  by_cases hd : s.head? = some '.'
  · rw [if_pos hd] at h
    by_cases he : s.tail.takeWhile isDigitChar = []
    · rw [if_pos he] at h; cases h
    · rw [if_neg he] at h
      simp only [Option.some.injEq, Prod.mk.injEq] at h
      obtain ⟨h1, -⟩ := h
      subst h1
      set digs := (s.tail.takeWhile isDigitChar).take 9 with hdigs
      have hlen : digs.length ≤ 9 := by
        rw [hdigs]; simp [List.length_take]
      have hdig : ∀ x ∈ digs, isDigitChar x = true := by
        intro x hx
        exact List.mem_takeWhile_imp (List.take_subset _ _ hx)
      have hval : digitsVal digs < 10 ^ digs.length := digitsVal_lt hdig
      have hsum : 10 ^ digs.length * 10 ^ (9 - digs.length) = 10 ^ 9 := by
        rw [← pow_add]
        congr 1
        omega
      have : digitsVal digs * 10 ^ (9 - digs.length) ≤
          (10 ^ digs.length - 1) * 10 ^ (9 - digs.length) :=
        Nat.mul_le_mul_right _ (by omega)
      have hp : (0 : Nat) < 10 ^ (9 - digs.length) := Nat.pos_pow_of_pos _ (by omega)
      have hexp : (10 ^ digs.length - 1) * 10 ^ (9 - digs.length) =
          10 ^ 9 - 10 ^ (9 - digs.length) := by
        rw [Nat.sub_mul, one_mul, hsum]
      omega
  · rw [if_neg hd] at h
    simp only [Option.some.injEq, Prod.mk.injEq] at h
    omega

theorem chronoParseFmt_nano_le {s : List Char} {c : RawComps}
    (h : chronoParseFmt s = some c) : c.nano ≤ 999999999 := by
  simp only [chronoParseFmt, bind, Option.bind_eq_some] at h
  obtain ⟨⟨y, s₁⟩, -, h⟩ := h
  obtain ⟨s₂, -, h⟩ := h
  obtain ⟨⟨mo, s₃⟩, -, h⟩ := h
  obtain ⟨s₄, -, h⟩ := h
  obtain ⟨⟨d, s₅⟩, -, h⟩ := h
  obtain ⟨s₆, -, h⟩ := h
  obtain ⟨⟨hh, s₇⟩, -, h⟩ := h
  obtain ⟨s₈, -, h⟩ := h
  obtain ⟨⟨mi, s₉⟩, -, h⟩ := h
  obtain ⟨s₁₀, -, h⟩ := h
  obtain ⟨⟨sec, s₁₁⟩, -, h⟩ := h
  obtain ⟨⟨na, s₁₂⟩, hfrac, h⟩ := h
  by_cases hnil : s₁₂ = []
  · rw [if_pos hnil] at h
    obtain rfl : RawComps.mk y mo d hh mi sec na = c := by
      simpa using h
    exact parseFrac_le hfrac
  · rw [if_neg hnil] at h
    cases h

theorem validateComps_some_inv {c : RawComps} {d : NaiveDT}
    (hn : c.nano ≤ 999999999) (h : validateComps c = some d) :
    ValidNaive d ∧ d = foldLeap c := by
  unfold validateComps at h
  by_cases hcond : -262144 ≤ c.year ∧ c.year ≤ 262143 ∧ 1 ≤ c.month ∧
      c.month ≤ 12 ∧ 1 ≤ c.day ∧ c.day ≤ daysInMonth c.year c.month ∧
      c.hour ≤ 23 ∧ c.minute ≤ 59 ∧ c.second ≤ 60
  · rw [if_pos hcond] at h
    obtain rfl : foldLeap c = d := by simpa using h
    refine ⟨?_, rfl⟩
    obtain ⟨h1, h2, h3, h4, h5, h6, h7, h8, h9⟩ := hcond
    unfold ValidNaive foldLeap
    by_cases hs : c.second = 60
    · rw [if_pos hs]
      exact ⟨h1, h2, h3, h4, h5, h6, h7, h8,
        show (59 : Nat) ≤ 59 from le_refl _,
        show c.nano + 1000000000 ≤ 1999999999 by omega⟩
    · rw [if_neg hs]
      exact ⟨h1, h2, h3, h4, h5, h6, h7, h8,
        show c.second ≤ 59 by omega,
        show c.nano ≤ 1999999999 by omega⟩
  · rw [if_neg hcond] at h
    cases h

theorem reconstruct_some_inv {tz : Tz} {raw : List Char} {year : Int}
    {dt : DateTimeLocal} (h : reconstruct tz raw year = some dt) :
    ValidNaive dt.naive ∧ tz dt.naive = LocalResult.single dt.offsetSeconds := by
  cases hp : chronoParseFmt (withYear year raw) with
  | none => simp [reconstruct, hp] at h
  | some c =>
    cases hv : validateComps c with
    | none => simp [reconstruct, hp, hv] at h
    | some d =>
      have hval := validateComps_some_inv (chronoParseFmt_nano_le hp) hv
      cases htz : tz d with
      | single off =>
        simp only [reconstruct, hp, Option.some_bind, hv, htz, singleOffset,
          Option.map_some', Option.some.injEq] at h
        obtain rfl : DateTimeLocal.mk d off = dt := h
        exact ⟨hval.1, htz⟩
      | nonexistent => simp [reconstruct, hp, hv, htz, singleOffset] at h
      | ambiguous a b => simp [reconstruct, hp, hv, htz, singleOffset] at h

/-! ## Forward computation of the chrono parse on strict-grammar input -/

theorem takeWhile_all_true {p : Char → Bool} {l : List Char}
    (h : ∀ x ∈ l, p x = true) : l.takeWhile p = l := by
  induction l with
  | nil => rfl
  | cons a t ih =>
    rw [List.takeWhile_cons_of_pos (h a (List.mem_cons_self a t)),
      ih (fun x hx => h x (List.mem_cons_of_mem a hx))]

theorem scanNumber_exact {digs rest : List Char} {maxd : Nat}
    (hn : digs ≠ []) (hd : ∀ c ∈ digs, isDigitChar c = true)
    (hlen : digs.length ≤ maxd)
    (hrest : ∀ c cs, rest = c :: cs → isDigitChar c = false)
    (hval : digitsVal digs ≤ 9223372036854775807) :
    scanNumber (some maxd) (digs ++ rest) = some (digitsVal digs, rest) := by
  have htw2 : rest.takeWhile isDigitChar = [] := by
    cases rest with
    | nil => rfl
    | cons c cs => rw [List.takeWhile_cons_of_neg (by simp [hrest c cs rfl])]
  have htw : (digs ++ rest).takeWhile isDigitChar = digs := by
    rw [takeWhile_append_all hd, htw2, List.append_nil]
  have htake : digs.take maxd = digs := List.take_of_length_le hlen
  simp only [scanNumber, htw, htake, if_neg hn, if_pos hval, List.drop_left]

theorem scanNumber_exact_unlimited {digs rest : List Char}
    (hn : digs ≠ []) (hd : ∀ c ∈ digs, isDigitChar c = true)
    (hrest : ∀ c cs, rest = c :: cs → isDigitChar c = false)
    (hval : digitsVal digs ≤ 9223372036854775807) :
    scanNumber none (digs ++ rest) = some (digitsVal digs, rest) := by
  have htw2 : rest.takeWhile isDigitChar = [] := by
    cases rest with
    | nil => rfl
    | cons c cs => rw [List.takeWhile_cons_of_neg (by simp [hrest c cs rfl])]
  have htw : (digs ++ rest).takeWhile isDigitChar = digs := by
    rw [takeWhile_append_all hd, htw2, List.append_nil]
  simp only [scanNumber, htw, if_neg hn, if_pos hval, List.drop_left]

theorem dropWhile_space_noop {s : List Char}
    (h : ∀ c cs, s = c :: cs → isRustSpace c = false) :
    s.dropWhile isRustSpace = s := by
  cases s with
  | nil => rfl
  | cons c cs => rw [List.dropWhile_cons_of_neg (by simp [h c cs rfl])]

theorem parseNumU_exact {digs rest : List Char} {w : Nat}
    (hn : digs ≠ []) (hd : ∀ c ∈ digs, isDigitChar c = true)
    (hlen : digs.length ≤ w)
    (hrest : ∀ c cs, rest = c :: cs → isDigitChar c = false)
    (hval : digitsVal digs ≤ 9223372036854775807) :
    parseNumU w (digs ++ rest) = some (digitsVal digs, rest) := by
  unfold parseNumU
  have hnoop : (digs ++ rest).dropWhile isRustSpace = digs ++ rest := by
    refine dropWhile_space_noop ?_
    intro c cs hcc
    cases digs with
    | nil => exact absurd rfl hn
    | cons a t =>
      rw [List.cons_append] at hcc
      injection hcc with h1 _
      rw [← h1]
      exact not_space_of_digit (hd a (List.mem_cons_self a t))
  rw [hnoop]
  exact scanNumber_exact hn hd hlen hrest hval

theorem digit_ne_dash {c : Char} (h : isDigitChar c = true) : c ≠ '-' := by
  intro hc
  subst hc
  simp [isDigitChar] at h

theorem digit_ne_plus {c : Char} (h : isDigitChar c = true) : c ≠ '+' := by
  intro hc
  subst hc
  simp [isDigitChar] at h

theorem parseYear_withYear {year : Int} (hy1 : -262144 ≤ year) (hy2 : year ≤ 9999)
    {rest : List Char} (hrest : ∀ c cs, rest = c :: cs → isDigitChar c = false) :
    parseYear (intDecimal year ++ rest) = some (year, rest) := by
  by_cases hneg : year < 0
  · have hid : intDecimal year = '-' :: natDecimal (-year).toNat := by
      rw [intDecimal, if_pos hneg]
    have hnoop : (intDecimal year ++ rest).dropWhile isRustSpace =
        '-' :: (natDecimal (-year).toNat ++ rest) := by
      rw [hid, List.cons_append]
      exact dropWhile_space_noop (fun c cs hcc => by
        injection hcc with h1 _
        subst h1
        decide)
    unfold parseYear
    rw [hnoop, List.head?_cons, List.tail_cons]
    rw [if_pos rfl]
    have hscan : scanNumber none (natDecimal (-year).toNat ++ rest) =
        some ((-year).toNat, rest) := by
      have := scanNumber_exact_unlimited (natDecimal_ne_nil (-year).toNat)
        (natDecimal_all_digits (-year).toNat) hrest
        (by rw [digitsVal_natDecimal]; omega)
      rw [digitsVal_natDecimal] at this
      exact this
    simp only [List.head?_cons, List.tail_cons, hscan, Option.map_some']
    congr 1
    rw [Prod.mk.injEq]
    refine ⟨?_, rfl⟩
    omega
  · have hpos : 0 ≤ year := by omega
    have hid : intDecimal year = natDecimal year.toNat := by
      rw [intDecimal, if_neg hneg]
    have hhead : ∃ a t, natDecimal year.toNat = a :: t ∧ isDigitChar a = true := by
      cases hnd : natDecimal year.toNat with
      | nil => exact absurd hnd (natDecimal_ne_nil _)
      | cons a t =>
        exact ⟨a, t, rfl, natDecimal_all_digits year.toNat a
          (by rw [hnd]; exact List.mem_cons_self a t)⟩
    obtain ⟨a, t, hat, hdig⟩ := hhead
    have hnoop : (intDecimal year ++ rest).dropWhile isRustSpace =
        intDecimal year ++ rest := by
      refine dropWhile_space_noop (fun c cs hcc => ?_)
      rw [hid, hat, List.cons_append] at hcc
      injection hcc with h1 _
      subst h1
      exact not_space_of_digit hdig
    have hheadne : ((intDecimal year ++ rest).head? ≠ some '-') ∧
        ((intDecimal year ++ rest).head? ≠ some '+') := by
      rw [hid, hat, List.cons_append, List.head?_cons]
      constructor
      · intro hc
        injection hc with hc2
        exact digit_ne_dash hdig hc2
      · intro hc
        injection hc with hc2
        exact digit_ne_plus hdig hc2
    unfold parseYear
    rw [hnoop, if_neg hheadne.1, if_neg hheadne.2]
    have hlen : (natDecimal year.toNat).length ≤ 4 := by
      refine natDecimal_length_le (by omega) ?_
      have : year.toNat ≤ 9999 := by omega
      omega
    have hscan : scanNumber (some 4) (natDecimal year.toNat ++ rest) =
        some (year.toNat, rest) := by
      have := scanNumber_exact (natDecimal_ne_nil year.toNat)
        (natDecimal_all_digits year.toNat) hlen hrest
        (by rw [digitsVal_natDecimal]; omega)
      rw [digitsVal_natDecimal] at this
      exact this
    rw [hid, hscan]
    simp only [Option.map_some']
    congr 1
    rw [Prod.mk.injEq]
    refine ⟨?_, rfl⟩
    omega

theorem parseLit_self (c : Char) (rest : List Char) :
    parseLit c (c :: rest) = some rest := by
  simp [parseLit]

theorem parseFrac_of_fracOk {r fr : List Char} (h : fracOk r = some fr) :
    parseFrac r = some (fracNano fr, []) := by
  unfold fracOk at h
  by_cases hnil : r = []
  · rw [if_pos hnil] at h
    obtain rfl : ([] : List Char) = fr := by injection h
    subst hnil
    rfl
  · rw [if_neg hnil] at h
    by_cases hc : r.head? = some '.' ∧ r.tail ≠ [] ∧ r.tail.all isDigitChar
    · rw [if_pos hc] at h
      obtain rfl : r.tail = fr := by injection h
      obtain ⟨hz1, hz2, hz3⟩ := hc
      unfold parseFrac
      rw [if_pos hz1]
      have htw : r.tail.takeWhile isDigitChar = r.tail :=
        takeWhile_all_true (fun x hx => (List.all_eq_true.mp hz3) x hx)
      rw [htw, if_neg hz2, List.drop_length]
      rfl
    · rw [if_neg hc] at h
      cases h

theorem fracOk_head {r fr : List Char} (h : fracOk r = some fr) :
    ∀ c cs, r = c :: cs → isDigitChar c = false := by
  intro c cs hcc
  unfold fracOk at h
  by_cases hnil : r = []
  · rw [hnil] at hcc; cases hcc
  · rw [if_neg hnil] at h
    by_cases hc : r.head? = some '.' ∧ r.tail ≠ [] ∧ r.tail.all isDigitChar
    · obtain ⟨hz1, -, -⟩ := hc
      rw [hcc, List.head?_cons] at hz1
      injection hz1 with hz1'
      subst hz1'
      decide
    · rw [if_neg hc] at h
      cases h

theorem chronoParseFmt_strict {year : Int} (hy1 : -262144 ≤ year)
    (hy2 : year ≤ 9999) {m1 m2 d1 d2 e1 e2 i1 i2 s1 s2 : Char} {r fr : List Char}
    (hm1 : isDigitChar m1 = true) (hm2 : isDigitChar m2 = true)
    (hd1 : isDigitChar d1 = true) (hd2 : isDigitChar d2 = true)
    (he1 : isDigitChar e1 = true) (he2 : isDigitChar e2 = true)
    (hi1 : isDigitChar i1 = true) (hi2 : isDigitChar i2 = true)
    (hs1 : isDigitChar s1 = true) (hs2 : isDigitChar s2 = true)
    (hfr : fracOk r = some fr) :
    chronoParseFmt (withYear year (m1 :: m2 :: '-' :: d1 :: d2 :: '|' :: e1 ::
        e2 :: ':' :: i1 :: i2 :: ':' :: s1 :: s2 :: r)) =
    some (RawComps.mk year
      ((m1.toNat - 48) * 10 + (m2.toNat - 48))
      ((d1.toNat - 48) * 10 + (d2.toNat - 48))
      ((e1.toNat - 48) * 10 + (e2.toNat - 48))
      ((i1.toNat - 48) * 10 + (i2.toNat - 48))
      ((s1.toNat - 48) * 10 + (s2.toNat - 48))
      (fracNano fr)) := by
  have hb : ∀ {a b : Char}, isDigitChar a = true → isDigitChar b = true →
      digitsVal [a, b] ≤ 9223372036854775807 := by
    intro a b ha hbb
    simp only [isDigitChar, Bool.and_eq_true, decide_eq_true_eq] at ha hbb
    simp only [digitsVal, List.foldl_cons, List.foldl_nil]
    omega
  have hdp : ∀ {a b : Char}, isDigitChar a = true → isDigitChar b = true →
      ∀ c ∈ ([a, b] : List Char), isDigitChar c = true := by
    intro a b ha hbb c hc
    rcases List.mem_cons.mp hc with rfl | hc2
    · exact ha
    · rcases List.mem_cons.mp hc2 with rfl | hc3
      · exact hbb
      · cases hc3
  have hne2 : ∀ {a b : Char}, ([a, b] : List Char) ≠ [] := by
    intro a b h; cases h
  have hlen2 : ∀ {a b : Char}, ([a, b] : List Char).length ≤ 2 := by
    intro a b; simp
  have hrhead : ∀ c cs, r = c :: cs → isDigitChar c = false := fracOk_head hfr
  have hyear : parseYear (intDecimal year ++ ('-' :: m1 :: m2 :: '-' :: d1 ::
      d2 :: '|' :: e1 :: e2 :: ':' :: i1 :: i2 :: ':' :: s1 :: s2 :: r)) =
      some (year, '-' :: m1 :: m2 :: '-' :: d1 :: d2 :: '|' :: e1 :: e2 :: ':' ::
        i1 :: i2 :: ':' :: s1 :: s2 :: r) :=
    parseYear_withYear hy1 hy2 (fun c cs hcc => by
      injection hcc with h1 _
      rw [← h1]
      decide)
  have hmo : parseNumU 2 (m1 :: m2 :: '-' :: d1 :: d2 :: '|' :: e1 :: e2 ::
      ':' :: i1 :: i2 :: ':' :: s1 :: s2 :: r) =
      some (digitsVal [m1, m2], '-' :: d1 :: d2 :: '|' :: e1 :: e2 :: ':' ::
        i1 :: i2 :: ':' :: s1 :: s2 :: r) :=
    parseNumU_exact hne2 (hdp hm1 hm2) hlen2 (fun c cs hcc => by
      injection hcc with h1 _
      rw [← h1]
      decide) (hb hm1 hm2)
  have hda : parseNumU 2 (d1 :: d2 :: '|' :: e1 :: e2 :: ':' :: i1 :: i2 ::
      ':' :: s1 :: s2 :: r) =
      some (digitsVal [d1, d2], '|' :: e1 :: e2 :: ':' :: i1 :: i2 :: ':' ::
        s1 :: s2 :: r) :=
    parseNumU_exact hne2 (hdp hd1 hd2) hlen2 (fun c cs hcc => by
      injection hcc with h1 _
      rw [← h1]
      decide) (hb hd1 hd2)
  have hho : parseNumU 2 (e1 :: e2 :: ':' :: i1 :: i2 :: ':' :: s1 :: s2 :: r) =
      some (digitsVal [e1, e2], ':' :: i1 :: i2 :: ':' :: s1 :: s2 :: r) :=
    parseNumU_exact hne2 (hdp he1 he2) hlen2 (fun c cs hcc => by
      injection hcc with h1 _
      rw [← h1]
      decide) (hb he1 he2)
  have hmi : parseNumU 2 (i1 :: i2 :: ':' :: s1 :: s2 :: r) =
      some (digitsVal [i1, i2], ':' :: s1 :: s2 :: r) :=
    parseNumU_exact hne2 (hdp hi1 hi2) hlen2 (fun c cs hcc => by
      injection hcc with h1 _
      rw [← h1]
      decide) (hb hi1 hi2)
  have hse : parseNumU 2 (s1 :: s2 :: r) = some (digitsVal [s1, s2], r) :=
    parseNumU_exact hne2 (hdp hs1 hs2) hlen2 hrhead (hb hs1 hs2)
  have hfrac : parseFrac r = some (fracNano fr, []) := parseFrac_of_fracOk hfr
  simp only [chronoParseFmt, withYear, bind, hyear, Option.some_bind,
    parseLit_self, hmo, hda, hho, hmi, hse, hfrac, reduceIte, Option.pure_def,
    Option.some.injEq, digitsVal, List.foldl_cons, List.foldl_nil,
    Nat.zero_mul, Nat.zero_add]

theorem parseLit_inv {c : Char} {s r : List Char} (h : parseLit c s = some r) :
    s = c :: r := by
  cases s with
  | nil => simp [parseLit] at h
  | cons d t =>
    simp only [parseLit] at h
    by_cases hd : d = c
    · subst hd
      rw [if_pos rfl] at h
      injection h with h1
      rw [h1]
    · rw [if_neg hd] at h
      cases h

theorem twoDigits_inv {t : List Char} {n : Nat} {rest : List Char}
    (h : twoDigits t = some (n, rest)) :
    ∃ a b, t = a :: b :: rest ∧ isDigitChar a = true ∧ isDigitChar b = true ∧
      n = (a.toNat - 48) * 10 + (b.toNat - 48) := by
  cases t with
  | nil => simp [twoDigits] at h
  | cons a t2 =>
    cases t2 with
    | nil => simp [twoDigits] at h
    | cons b t3 =>
      simp only [twoDigits] at h
      by_cases hab : isDigitChar a = true ∧ isDigitChar b = true
      · rw [if_pos hab] at h
        injection h with h1
        have hn := congrArg Prod.fst h1
        have hr := congrArg Prod.snd h1
        simp only at hn hr
        exact ⟨a, b, by rw [hr], hab.1, hab.2, hn.symm⟩
      · rw [if_neg hab] at h
        cases h

theorem specShapeStrict_inv {raw : List Char} {mo d h mi s : Nat} {fr : List Char}
    (hsh : specShapeStrict raw = some (mo, d, h, mi, s, fr)) :
    ∃ m1 m2 d1 d2 e1 e2 i1 i2 s1 s2 r,
      raw = m1 :: m2 :: '-' :: d1 :: d2 :: '|' :: e1 :: e2 :: ':' :: i1 :: i2 ::
        ':' :: s1 :: s2 :: r ∧
      isDigitChar m1 = true ∧ isDigitChar m2 = true ∧
      isDigitChar d1 = true ∧ isDigitChar d2 = true ∧
      isDigitChar e1 = true ∧ isDigitChar e2 = true ∧
      isDigitChar i1 = true ∧ isDigitChar i2 = true ∧
      isDigitChar s1 = true ∧ isDigitChar s2 = true ∧
      fracOk r = some fr ∧
      mo = (m1.toNat - 48) * 10 + (m2.toNat - 48) ∧
      d = (d1.toNat - 48) * 10 + (d2.toNat - 48) ∧
      h = (e1.toNat - 48) * 10 + (e2.toNat - 48) ∧
      mi = (i1.toNat - 48) * 10 + (i2.toNat - 48) ∧
      s = (s1.toNat - 48) * 10 + (s2.toNat - 48) := by
  simp only [specShapeStrict, bind, Option.bind_eq_some] at hsh
  obtain ⟨⟨mo', r1⟩, hpmo, hsh⟩ := hsh
  obtain ⟨r2, hl1, hsh⟩ := hsh
  obtain ⟨⟨d', r3⟩, hpd, hsh⟩ := hsh
  obtain ⟨r4, hl2, hsh⟩ := hsh
  obtain ⟨⟨h', r5⟩, hph, hsh⟩ := hsh
  obtain ⟨r6, hl3, hsh⟩ := hsh
  obtain ⟨⟨mi', r7⟩, hpmi, hsh⟩ := hsh
  obtain ⟨r8, hl4, hsh⟩ := hsh
  obtain ⟨⟨s', r9⟩, hps, hsh⟩ := hsh
  obtain ⟨fr', hpfr, hsh⟩ := hsh
  simp only [Option.pure_def, Option.some.injEq, Prod.mk.injEq] at hsh
  obtain ⟨rfl, rfl, rfl, rfl, rfl, rfl⟩ := hsh
  obtain ⟨m1, m2, hr0, hm1, hm2, hvmo⟩ := twoDigits_inv hpmo
  obtain ⟨d1, d2, hr2, hd1, hd2, hvd⟩ := twoDigits_inv hpd
  obtain ⟨e1, e2, hr4, he1, he2, hvh⟩ := twoDigits_inv hph
  obtain ⟨i1, i2, hr6, hi1, hi2, hvmi⟩ := twoDigits_inv hpmi
  obtain ⟨s1, s2, hr8, hs1, hs2, hvs⟩ := twoDigits_inv hps
  have hl1' : r1 = '-' :: r2 := parseLit_inv hl1
  have hl2' : r3 = '|' :: r4 := parseLit_inv hl2
  have hl3' : r5 = ':' :: r6 := parseLit_inv hl3
  have hl4' : r7 = ':' :: r8 := parseLit_inv hl4
  have hpfr' : fracOk r9 = some fr' := hpfr
  refine ⟨m1, m2, d1, d2, e1, e2, i1, i2, s1, s2, r9, ?_, hm1, hm2, hd1, hd2,
    he1, he2, hi1, hi2, hs1, hs2, hpfr', hvmo, hvd, hvh, hvmi, hvs⟩
  rw [hr0, hl1', hr2, hl2', hr4, hl3', hr6, hl4', hr8]

/-! ## Characterization of the classifier -/

theorem matchTail_some_inv {rest msg : List Char} (h : matchTail rest = some msg) :
    ∃ c cs, rest = c :: cs ∧ isRustSpace c = true ∧
      msg = (rest.dropWhile isRustSpace).takeWhile (fun x => x ≠ '\n') := by
  cases rest with
  | nil => simp [matchTail] at h
  | cons c cs =>
    simp only [matchTail] at h
    by_cases hc : isRustSpace c = true
    · rw [if_pos hc] at h
      injection h with h1
      exact ⟨c, cs, rfl, hc, h1.symm⟩
    · rw [if_neg hc] at h
      cases h

theorem matchTail_of_head {c : Char} {cs : List Char} (hc : isRustSpace c = true) :
    matchTail (c :: cs) =
      some (((c :: cs).dropWhile isRustSpace).takeWhile (fun x => x ≠ '\n')) := by
  simp only [matchTail]
  rw [if_pos hc]

theorem matchTail_none_of_head {l : List Char} (hne : l ≠ [])
    (h : isRustSpace l.headI = false) : matchTail l = none := by
  cases l with
  | nil => exact absurd rfl hne
  | cons c cs =>
    have hc : isRustSpace c = false := h
    simp only [matchTail]
    rw [if_neg (by simp [hc])]

theorem matchTail_none_inv {l : List Char} (hne : l ≠ [])
    (h : matchTail l = none) : isRustSpace l.headI = false := by
  cases l with
  | nil => exact absurd rfl hne
  | cons c cs =>
    simp only [matchTail] at h
    by_cases hc : isRustSpace c = true
    · rw [if_pos hc] at h
      cases h
    · simpa using hc

theorem findClose_complete : ∀ (ts acc rest msg : List Char),
    (∀ c ∈ ts, c ≠ '\n') →
    acc.reverse ++ ts ≠ [] →
    matchTail rest = some msg →
    (∀ a b, ts = a ++ ']' :: b → acc.reverse ++ a ≠ [] →
      matchTail (b ++ ']' :: rest) = none) →
    findClose acc (ts ++ ']' :: rest) = some (acc.reverse ++ ts, msg) := by
  intro ts
  induction ts with
  | nil =>
    intro acc rest msg _ hne hmt _
    have hacc : acc ≠ [] := by
      intro hz
      subst hz
      simp at hne
    rw [List.nil_append]
    simp only [findClose]
    rw [if_pos trivial, if_neg hacc, hmt]
    simp
  | cons t ts' ih =>
    intro acc rest msg hnl hne hmt hmin
    have hsub : ∀ c ∈ ts', c ≠ '\n' :=
      fun c hc => hnl c (List.mem_cons_of_mem t hc)
    rw [List.cons_append]
    by_cases ht : t = ']'
    · subst ht
      simp only [findClose]
      rw [if_pos trivial]
      have hmin' : ∀ a b, ts' = a ++ ']' :: b → (']' :: acc).reverse ++ a ≠ [] →
          matchTail (b ++ ']' :: rest) = none := by
        intro a b hab _
        refine hmin (']' :: a) b ?_ (by simp)
        rw [hab, List.cons_append]
      by_cases hacc : acc = []
      · rw [if_pos hacc]
        subst hacc
        have := ih ([']']) rest msg hsub (by simp) hmt (by simpa using hmin')
        rw [this]
        simp
      · rw [if_neg hacc]
        have hmt0 : matchTail (ts' ++ ']' :: rest) = none :=
          hmin [] ts' rfl (by simpa using hacc)
        rw [hmt0]
        have := ih (']' :: acc) rest msg hsub (by simp) hmt hmin'
        rw [Option.map_none', Option.getD_none, this]
        simp
    · have htn : t ≠ '\n' := hnl t (List.mem_cons_self t ts')
      simp only [findClose]
      rw [if_neg ht, if_neg htn]
      have hmin' : ∀ a b, ts' = a ++ ']' :: b → (t :: acc).reverse ++ a ≠ [] →
          matchTail (b ++ ']' :: rest) = none := by
        intro a b hab _
        refine hmin (t :: a) b ?_ (by simp)
        rw [hab, List.cons_append]
      have := ih (t :: acc) rest msg hsub (by simp) hmt hmin'
      rw [this]
      simp

theorem findClose_sound : ∀ (s acc ts msg : List Char),
    findClose acc s = some (ts, msg) →
    ∃ mid rest, s = mid ++ ']' :: rest ∧ ts = acc.reverse ++ mid ∧
      acc.reverse ++ mid ≠ [] ∧
      (∀ c ∈ mid, c ≠ '\n') ∧ matchTail rest = some msg ∧
      (∀ a b, mid = a ++ ']' :: b → acc.reverse ++ a ≠ [] →
        matchTail (b ++ ']' :: rest) = none) := by
  intro s
  induction s with
  | nil =>
    intro acc ts msg h
    simp [findClose] at h
  | cons c s' ih =>
    intro acc ts msg h
    by_cases hc : c = ']'
    · subst hc
      simp only [findClose] at h
      rw [if_pos trivial] at h
      by_cases hacc : acc = []
      · rw [if_pos hacc] at h
        subst hacc
        obtain ⟨mid', rest', hs', hts', -, hnl', hmt', hmin'⟩ := ih ([']']) ts msg h
        refine ⟨']' :: mid', rest', by rw [hs', List.cons_append], ?_, by simp, ?_,
          hmt', ?_⟩
        · simpa using hts'
        · intro x hx
          rcases List.mem_cons.mp hx with rfl | hx'
          · decide
          · exact hnl' x hx'
        · intro a b hab hne2
          cases a with
          | nil =>
            exact absurd (show ([] : List Char).reverse ++ [] = [] by simp) hne2
          | cons a0 a' =>
            rw [List.cons_append] at hab
            injection hab with h1 h2
            exact hmin' a' b h2 (by simp)
      · rw [if_neg hacc] at h
        cases hmt0 : matchTail s' with
        | some m =>
          rw [hmt0, Option.map_some', Option.getD_some] at h
          injection h with h1
          have hts : acc.reverse = ts := congrArg Prod.fst h1
          have hmm : m = msg := congrArg Prod.snd h1
          subst hmm
          refine ⟨[], s', rfl, by rw [← hts, List.append_nil], by simp [hacc],
            by simp, hmt0, ?_⟩
          intro a b hab _
          cases a with
          | nil => cases hab
          | cons a0 a' => cases hab
        | none =>
          rw [hmt0, Option.map_none', Option.getD_none] at h
          obtain ⟨mid', rest', hs', hts', -, hnl', hmt', hmin'⟩ :=
            ih (']' :: acc) ts msg h
          refine ⟨']' :: mid', rest', by rw [hs', List.cons_append], ?_, by simp,
            ?_, hmt', ?_⟩
          · rw [hts']
            simp
          · intro x hx
            rcases List.mem_cons.mp hx with rfl | hx'
            · decide
            · exact hnl' x hx'
          · intro a b hab hne2
            cases a with
            | nil =>
              rw [List.nil_append] at hab
              injection hab with _ h2
              rw [← h2, ← hs']
              exact hmt0
            | cons a0 a' =>
              rw [List.cons_append] at hab
              injection hab with h1 h2
              exact hmin' a' b h2 (by simp)
    · by_cases hn : c = '\n'
      · subst hn
        simp [findClose, hc] at h
      · simp only [findClose] at h
        rw [if_neg hc, if_neg hn] at h
        obtain ⟨mid', rest', hs', hts', -, hnl', hmt', hmin'⟩ := ih (c :: acc) ts msg h
        refine ⟨c :: mid', rest', by rw [hs', List.cons_append], ?_, by simp,
          ?_, hmt', ?_⟩
        · rw [hts']
          simp
        · intro x hx
          rcases List.mem_cons.mp hx with rfl | hx'
          · exact hn
          · exact hnl' x hx'
        · intro a b hab hne2
          cases a with
          | nil =>
            rw [List.nil_append] at hab
            injection hab with h1 _
            exact absurd h1 hc
          | cons a0 a' =>
            rw [List.cons_append] at hab
            injection hab with h1 h2
            exact hmin' a' b h2 (by simp)

theorem matchLevel_complete {lvl : List Char} (R : List Char)
    (h : lvl ∈ levelKeywords) : matchLevel (lvl ++ R) = some (lvl, R) := by
  simp only [levelKeywords, List.mem_cons, List.mem_singleton,
    List.not_mem_nil] at h
  rcases h with rfl | rfl | rfl | rfl | rfl | h
  · simp [matchLevel, levelKeywords, dropLit]
  · simp [matchLevel, levelKeywords, dropLit]
  · simp [matchLevel, levelKeywords, dropLit]
  · simp [matchLevel, levelKeywords, dropLit]
  · simp [matchLevel, levelKeywords, dropLit]
  · cases h

/-! ## Claim theorems -/

/-- Claim C4: the attribute extractor scans left to right with
non-overlapping matches (the `kvScan` order) and, when a key occurs more than
once, the last occurrence wins: the stored value for `k` is the last scanned
value for `k`.  In particular `extract "a=1 b=\"x y\" a=2"` is exactly the
mapping `{a ↦ "2", b ↦ "x y"}`. -/
theorem c4_duplicate_keys_last_wins :
    (∀ msg k, getAttr (extract msg) k =
      ((kvScan msg).reverse.find? (fun p => p.1 = k)).map (fun p => unquote p.2)) ∧
    getAttr (extract (String.data "a=1 b=\"x y\" a=2")) (String.data "a") =
      some (String.data "2") ∧
    getAttr (extract (String.data "a=1 b=\"x y\" a=2")) (String.data "b") =
      some (String.data "x y") ∧
    (∀ k, k ≠ String.data "a" → k ≠ String.data "b" →
      getAttr (extract (String.data "a=1 b=\"x y\" a=2")) k = none) := by
  refine ⟨getAttr_extract, by decide, by decide, ?_⟩
  intro k ha hb
  have hE : extract (String.data "a=1 b=\"x y\" a=2") =
      [(String.data "b", String.data "x y"), (String.data "a", String.data "2")] := by
    decide
  rw [hE, getAttr_cons, if_neg (fun h => hb h.symm), getAttr_cons,
    if_neg (fun h => ha h.symm), getAttr_nil]

theorem c4_duplicate_keys_last_wins_witness :
    getAttr (extract (String.data "a=1 b=\"x y\" a=2")) (String.data "c") = none :=
  c4_duplicate_keys_last_wins.2.2.2 (String.data "c") (by decide) (by decide)

/-- Claim C5: every value the extractor captures is stored after the exact
unquoting the spec describes: if it starts and ends with `"`, exactly one
leading and one trailing quote are removed (`specUnquote`, the spec's
wording) — which on every reachable captured value coincides with the code's
`trim_matches`-based `unquote`; all other values are stored unchanged.
Consequently the whole extractor is unchanged if the code's unquoting step is
replaced by the spec's. -/
theorem c5_unquoting_refines_spec :
    (∀ msg p, p ∈ kvScan msg → unquote p.2 = specUnquote p.2) ∧
    (∀ msg, extract msg =
      (kvScan msg).foldl (fun m p => insertKV m p.1 (specUnquote p.2)) []) := by
  constructor
  · intro msg p hp
    exact kvScan_unquote msg.length msg le_rfl p hp
  · intro msg
    rw [extract]
    exact foldl_insert_congr _ _
      (fun p hp => kvScan_unquote msg.length msg le_rfl p hp)

theorem c5_unquoting_refines_spec_witness :
    unquote (String.data "\"x y\"") = specUnquote (String.data "\"x y\"") :=
  c5_unquoting_refines_spec.1 (String.data "b=\"x y\"")
    (String.data "b", String.data "\"x y\"") (by decide)

/-- Claim C6 counterexample: the claim quantifies over every whitespace-free
value `v`; take `v = "1"` (quotes included, no whitespace) and the message
`a="1"`, which embeds the token `a=v` (it *is* that token).  The extracted
entry for `a` is `1`, not `v`: the extractor unquotes the captured value, so
round-tripping fails for values that start and end with a quote. -/
theorem c6_counterexample_quoted_value :
    getAttr (extract (String.data "a=\"1\"")) (String.data "a") =
      some (String.data "1") ∧
    String.data "1" ≠ String.data "\"1\"" ∧
    (∀ c ∈ String.data "\"1\"", isRustSpace c = false) := by
  exact ⟨by decide, by decide, by decide⟩

/-- Claim C6 (amended): for a key of word characters and a non-empty value
containing no whitespace and not starting with a double quote, extracting
from a message that embeds the token `k=v` surrounded by whitespace yields
exactly the mapping `{k ↦ v}` — the round-trip holds. -/
theorem c6_roundtrip_amended (k v ws₁ ws₂ : List Char) (hk : k ≠ [])
    (hkw : ∀ c ∈ k, isWordChar c = true) (hv : v ≠ [])
    (hvs : ∀ c ∈ v, isRustSpace c = false) (hvq : v.head? ≠ some '"')
    (hw₁ : ∀ c ∈ ws₁, isRustSpace c = true)
    (hw₂ : ∀ c ∈ ws₂, isRustSpace c = true) :
    extract (ws₁ ++ (k ++ '=' :: (v ++ ws₂))) = [(k, v)] ∧
    getAttr (extract (ws₁ ++ (k ++ '=' :: (v ++ ws₂)))) k = some v := by
  have hscan : kvScan (ws₁ ++ (k ++ '=' :: (v ++ ws₂))) = [(k, v)] := by
    rw [kvScan_leading_space ws₁ _ hw₁,
      kvScan_match (matchKVAt_token hk hkw hv hvs hvq hw₂),
      kvScan_all_space hw₂]
  have hext : extract (ws₁ ++ (k ++ '=' :: (v ++ ws₂))) = [(k, v)] := by
    rw [extract, hscan, List.foldl_cons, List.foldl_nil, unquote_of_head_ne hvq]
    rfl
  exact ⟨hext, by rw [hext, getAttr_cons, if_pos rfl]⟩

theorem c6_roundtrip_amended_witness :
    extract (String.data " a=1\n") = [(String.data "a", String.data "1")] ∧
    getAttr (extract (String.data " a=1\n")) (String.data "a") =
      some (String.data "1") := by
  have h := c6_roundtrip_amended (String.data "a") (String.data "1") [' '] ['\n']
    (by decide) (by decide) (by decide) (by decide) (by decide) (by decide)
    (by decide)
  have heq : [' '] ++ (String.data "a" ++ '=' :: (String.data "1" ++ ['\n'])) =
      String.data " a=1\n" := by decide
  rw [heq] at h
  exact h

/-- Claim C8: the processing loop visits every line — the reported total is
the number of lines regardless of per-line failures (no abort), exactly one
record is emitted per successfully parsed line, in source order
(`filterMap`), the valid count is the number of emitted records, and the
invalid count (total − valid) is the number of lines on which classification
or timestamp reconstruction failed. -/
theorem c8_processing_loop (tz : Tz) (year : Int) (lines : List (List Char)) :
    (process_log_file tz year lines).1 = lines.length ∧
    (process_log_file tz year lines).2.2 =
      lines.filterMap (fun l => parse_line tz l year) ∧
    (process_log_file tz year lines).2.1 =
      (lines.filterMap (fun l => parse_line tz l year)).length ∧
    (process_log_file tz year lines).1 - (process_log_file tz year lines).2.1 =
      (lines.filter (fun l => (parse_line tz l year).isNone)).length := by
  rw [process_log_file_eq]
  refine ⟨rfl, rfl, rfl, ?_⟩
  have := filterMap_length_add_none tz year lines
  simp only []
  omega

/-- Claim C9: a zero-byte input takes the distinct empty-file exit (zero
records, normal termination) before any processing; and whenever the run
reaches the summary (the `completed` outcome, whose percentage field divides
invalid by total), the total is positive — the division is never performed
with a zero total. -/
theorem c9_empty_file_handling :
    (∀ (tz : Tz) (year : Int), run tz year [] = RunOutcome.emptyFile) ∧
    (∀ (tz : Tz) (year : Int) (content : List Char) (t v : Nat) (p : ℚ)
      (r : List LogEntry),
      run tz year content = RunOutcome.completed t v p r → 0 < t) := by
  constructor
  · intro tz year; rfl
  · intro tz year content t v p r h
    by_cases hc : content = []
    · subst hc
      rw [run, if_pos rfl] at h
      cases h
    · rw [run, if_neg hc, RunOutcome.completed.injEq] at h
      obtain ⟨h1, -, -, -⟩ := h
      rw [process_log_file_eq] at h1
      have hpos : 0 < (splitLines content).length :=
        List.length_pos.mpr (splitLines_ne_nil hc)
      simp only [] at h1
      omega

theorem c9_empty_file_handling_witness : 0 < 1 := by
  refine c9_empty_file_handling.2 tzUTC 2024 (String.data "x\n") 1 0
    ((((1 : Nat) - (0 : Nat) : Nat) : ℚ) / (((1 : Nat) : Nat) : ℚ) * 100) [] ?_
  rfl

/-- Claim C7: every record the line processor produces satisfies the record
invariant — its level is one of the five keywords, its timestamp is a valid
absolute local-zoned time (fields in calendar range, and the abstract local
zone resolved it to exactly the attached offset), its message is the
classifier's message capture with attributes left in place, and its
attributes field is exactly the extraction from that unmodified message; the
record exists only as a whole (`parse_line` returns the complete record or
`none`). -/
theorem c7_record_invariant (tz : Tz) (year : Int) (line : List Char)
    (e : LogEntry) (h : parse_line tz line year = some e) :
    e.level ∈ levelKeywords ∧
    ValidNaive e.timestamp.naive ∧
    tz e.timestamp.naive = LocalResult.single e.timestamp.offsetSeconds ∧
    (∃ ts, classify line = some (e.level, ts, e.message) ∧
      reconstruct tz ts year = some e.timestamp) ∧
    e.details = extract e.message := by
  cases hcl : classify line with
  | none => simp [parse_line, hcl] at h
  | some t =>
    obtain ⟨lvl, ts, msg⟩ := t
    cases hre : reconstruct tz ts year with
    | none => simp [parse_line, hcl, hre] at h
    | some dt =>
      simp only [parse_line, hcl, Option.some_bind, hre, Option.map_some',
        Option.some.injEq] at h
      subst h
      exact ⟨classify_level_mem hcl, (reconstruct_some_inv hre).1,
        (reconstruct_some_inv hre).2, ⟨ts, rfl, hre⟩, rfl⟩

theorem c7_record_invariant_witness :
    (String.data "INFO") ∈ levelKeywords ∧
    ValidNaive (NaiveDT.mk 2024 3 15 14 22 5 123000000) ∧
    tzUTC (NaiveDT.mk 2024 3 15 14 22 5 123000000) = LocalResult.single 0 ∧
    (∃ ts,
      classify (String.data
          "INFO [03-15|14:22:05.123] user=alice action=\"log in\" status=ok\n") =
        some (String.data "INFO", ts,
          String.data "user=alice action=\"log in\" status=ok") ∧
      reconstruct tzUTC ts 2024 =
        some (DateTimeLocal.mk (NaiveDT.mk 2024 3 15 14 22 5 123000000) 0)) ∧
    [(String.data "user", String.data "alice"),
     (String.data "action", String.data "log in"),
     (String.data "status", String.data "ok")] =
      extract (String.data "user=alice action=\"log in\" status=ok") :=
  c7_record_invariant tzUTC 2024
    (String.data "INFO [03-15|14:22:05.123] user=alice action=\"log in\" status=ok\n")
    (LogEntry.mk (String.data "INFO")
      (DateTimeLocal.mk (NaiveDT.mk 2024 3 15 14 22 5 123000000) 0)
      (String.data "user=alice action=\"log in\" status=ok")
      [(String.data "user", String.data "alice"),
       (String.data "action", String.data "log in"),
       (String.data "status", String.data "ok")])
    (by decide)

/-- Claim C10: chrono's numeric items tolerate fewer than the maximum digits,
so a raw timestamp that is *not* of the strict two-digit `MM-DD|HH:MM:SS`
shape — `3-5|1:2:3` — is still reconstructed successfully, yielding
March 5, 01:02:03 of the supplied year. -/
theorem c10_single_digit_fields (tz : Tz) (off : Int)
    (h : tz (NaiveDT.mk 2024 3 5 1 2 3 0) = LocalResult.single off) :
    specShapeStrict (String.data "3-5|1:2:3") = none ∧
    reconstruct tz (String.data "3-5|1:2:3") 2024 =
      some (DateTimeLocal.mk (NaiveDT.mk 2024 3 5 1 2 3 0) off) := by
  refine ⟨rfl, ?_⟩
  have h1 : chronoParseFmt (withYear 2024 (String.data "3-5|1:2:3")) =
      some (RawComps.mk 2024 3 5 1 2 3 0) := by decide
  have h2 : validateComps (RawComps.mk 2024 3 5 1 2 3 0) =
      some (NaiveDT.mk 2024 3 5 1 2 3 0) := by decide
  simp only [reconstruct, h1, Option.some_bind, h2, h, singleOffset,
    Option.map_some']

/-- Claim C2 (amended): timestamp reconstruction is total (it returns an
`Option`, never panicking or substituting a default) and fails *exactly*
when: the year-prefixed text fails chrono's (lenient) syntactic scan of the
`%Y-%m-%d|%H:%M:%S%.f` format; or the scanned fields are not a valid
calendar date-time, where a second of 60 is additionally tolerated as a leap
second; or the local-time disambiguation of the resolved date-time yields
anything other than exactly one offset (both the ambiguous and the
nonexistent case fail).  Moreover a line whose timestamp fails this way
yields no record at all — it degrades to an invalid line instead of aborting
(the counting is Claim C8's loop theorem). -/
theorem c2_failure_modes (tz : Tz) (year : Int) :
    (∀ raw, reconstruct tz raw year = none ↔
      chronoParseFmt (withYear year raw) = none ∨
      (∃ c, chronoParseFmt (withYear year raw) = some c ∧ ¬GoodComps c) ∨
      (∃ c, chronoParseFmt (withYear year raw) = some c ∧ GoodComps c ∧
        ∀ o, tz (foldLeap c) ≠ LocalResult.single o)) ∧
    (∀ line lvl ts msg, classify line = some (lvl, ts, msg) →
      reconstruct tz ts year = none → parse_line tz line year = none) := by
  constructor
  · intro raw
    cases hp : chronoParseFmt (withYear year raw) with
    | none =>
      constructor
      · intro _
        exact Or.inl rfl
      · intro _
        simp [reconstruct, hp]
    | some c =>
      by_cases hg : GoodComps c
      · have hv : validateComps c = some (foldLeap c) := by
          unfold validateComps
          exact if_pos hg
        cases hlr : tz (foldLeap c) with
        | single o =>
          have hrec : reconstruct tz raw year =
              some (DateTimeLocal.mk (foldLeap c) o) := by
            simp [reconstruct, hp, hv, hlr, singleOffset]
          constructor
          · intro hnone
            rw [hrec] at hnone
            cases hnone
          · rintro (hcon | ⟨c', hc', hng⟩ | ⟨c', hc', -, hall⟩)
            · cases hcon
            · obtain rfl : c = c' := by injection hc'
              exact absurd hg hng
            · obtain rfl : c = c' := by injection hc'
              exact absurd hlr (hall o)
        | nonexistent =>
          have hrec : reconstruct tz raw year = none := by
            simp [reconstruct, hp, hv, hlr, singleOffset]
          constructor
          · intro _
            refine Or.inr (Or.inr ⟨c, rfl, hg, fun o ho => ?_⟩)
            rw [hlr] at ho
            cases ho
          · intro _
            exact hrec
        | ambiguous a b =>
          have hrec : reconstruct tz raw year = none := by
            simp [reconstruct, hp, hv, hlr, singleOffset]
          constructor
          · intro _
            refine Or.inr (Or.inr ⟨c, rfl, hg, fun o ho => ?_⟩)
            rw [hlr] at ho
            cases ho
          · intro _
            exact hrec
      · have hv : validateComps c = none := by
          unfold validateComps
          exact if_neg hg
        constructor
        · intro _
          exact Or.inr (Or.inl ⟨c, rfl, hg⟩)
        · intro _
          simp [reconstruct, hp, hv]
  · intro line lvl ts msg hcl hre
    simp [parse_line, hcl, hre]

theorem c2_failure_modes_witness :
    parse_line tzUTC (String.data "INFO [02-30|10:00:00] boom\n") 2024 = none :=
  (c2_failure_modes tzUTC 2024).2
    (String.data "INFO [02-30|10:00:00] boom\n")
    (String.data "INFO") (String.data "02-30|10:00:00") (String.data "boom")
    (by decide) rfl

/-- Claim C2 counterexample: the claim requires failure whenever the
month/day/time combination is not a valid calendar date-time, and `00:00:60`
is not a valid time of day (seconds run 0–59, like the claim's `hour 25`
example) — yet the code succeeds on it: chrono's `%S` accepts 60 and folds
it into a leap second (stored as second 59 with an extra 10⁹ nanoseconds). -/
theorem c2_counterexample_leap_second :
    specShapeStrict (String.data "01-01|00:00:60") = some (1, 1, 0, 0, 60, []) ∧
    ¬((60 : Nat) ≤ 59) ∧
    reconstruct tzUTC (String.data "01-01|00:00:60") 2024 =
      some (DateTimeLocal.mk (NaiveDT.mk 2024 1 1 0 0 59 1000000000) 0) :=
  ⟨rfl, by decide, rfl⟩

/-- Claim C1 (amended): for every raw timestamp text matching the strict
`MM-DD|HH:MM:SS(.f+)` grammar whose month/day/time is a valid calendar
date-time for the supplied year, every year between −262144 and 9999 (the
year parser reads at most four digits without a sign, and chrono's calendar
floor is −262144), and a local zone resolving the resulting date-time to a
single offset, reconstruction succeeds and the returned timestamp carries
exactly the input's month, day, hour, minute and second, the supplied year,
and the fraction scaled to nanoseconds. -/
theorem c1_reconstruction_amended (tz : Tz) (raw : List Char) (year : Int)
    (mo d h mi s : Nat) (fr : List Char) (off : Int)
    (hshape : specShapeStrict raw = some (mo, d, h, mi, s, fr))
    (hmo1 : 1 ≤ mo) (hmo2 : mo ≤ 12) (hd1 : 1 ≤ d)
    (hd2 : d ≤ daysInMonth year mo) (hh : h ≤ 23) (hmi : mi ≤ 59) (hsec : s ≤ 59)
    (hy1 : -262144 ≤ year) (hy2 : year ≤ 9999)
    (htz : tz (NaiveDT.mk year mo d h mi s (fracNano fr)) =
      LocalResult.single off) :
    reconstruct tz raw year =
      some (DateTimeLocal.mk (NaiveDT.mk year mo d h mi s (fracNano fr)) off) := by
  obtain ⟨m1, m2, dd1, dd2, e1, e2, i1, i2, ss1, ss2, r, hraw, hm1, hm2, hdd1,
    hdd2, he1, he2, hi1, hi2, hs1, hs2, hfr, hvmo, hvd, hvh, hvmi, hvs⟩ :=
    specShapeStrict_inv hshape
  subst hraw
  have hparse := chronoParseFmt_strict hy1 hy2 hm1 hm2 hdd1 hdd2 he1 he2 hi1
    hi2 hs1 hs2 hfr
  rw [← hvmo, ← hvd, ← hvh, ← hvmi, ← hvs] at hparse
  have hval : validateComps (RawComps.mk year mo d h mi s (fracNano fr)) =
      some (NaiveDT.mk year mo d h mi s (fracNano fr)) := by
    unfold validateComps
    rw [if_pos ⟨hy1, show year ≤ 262143 by omega, hmo1, hmo2, hd1, hd2, hh,
      hmi, show s ≤ 60 by omega⟩]
    unfold foldLeap
    rw [if_neg (show ¬(s = 60) by omega)]
  simp only [reconstruct, hparse, Option.some_bind, hval, htz, singleOffset,
    Option.map_some']

theorem c1_reconstruction_amended_witness :
    reconstruct tzUTC (String.data "03-15|14:22:05.123") 2024 =
      some (DateTimeLocal.mk (NaiveDT.mk 2024 3 15 14 22 5 123000000) 0) :=
  c1_reconstruction_amended tzUTC (String.data "03-15|14:22:05.123") 2024
    3 15 14 22 5 (String.data "123") 0 rfl (by decide) (by decide)
    (by decide) (by decide) (by decide) (by decide) (by decide) (by decide)
    (by decide) rfl

/-- Claim C1 counterexample: the claim as stated quantifies over *every*
year.  For year 10000 the grammar, calendar validity and single-offset
hypotheses all hold (shown by the first three conjuncts, with the fixed-
offset zone `tzUTC`), yet reconstruction fails: Rust formats the year as five
digits and chrono's unsigned `%Y` reads at most four, so the following
literal `-` does not match. -/
theorem c1_counterexample_year_10000 :
    specShapeStrict (String.data "03-15|14:22:05") = some (3, 15, 14, 22, 5, []) ∧
    (1 ≤ 3 ∧ 3 ≤ 12 ∧ 1 ≤ 15 ∧ 15 ≤ daysInMonth 10000 3 ∧ 14 ≤ 23 ∧
      22 ≤ 59 ∧ 5 ≤ 59) ∧
    tzUTC (NaiveDT.mk 10000 3 15 14 22 5 0) = LocalResult.single 0 ∧
    reconstruct tzUTC (String.data "03-15|14:22:05") 10000 = none :=
  ⟨rfl, by decide, rfl, rfl⟩

theorem c10_single_digit_fields_witness :
    specShapeStrict (String.data "3-5|1:2:3") = none ∧
    reconstruct tzUTC (String.data "3-5|1:2:3") 2024 =
      some (DateTimeLocal.mk (NaiveDT.mk 2024 3 5 1 2 3 0) 0) :=
  c10_single_digit_fields tzUTC 0 rfl


/-- Claim C3 (amended): the classifier returns `(level, timestamp, message)`
exactly on lines of the shape `LEVEL ws* [ts] ws+ msg` — but because the lazy
group backtracks when the mandatory whitespace after `]` is missing, the
captured timestamp may itself contain `]` characters; the exact language is
`ClassifiedShape`, whose minimality clause says every earlier closing bracket
is rejected because no whitespace follows it. -/
theorem c3_classifier_grammar_amended (line lvl ts msg : List Char) :
    classify line = some (lvl, ts, msg) ↔ ClassifiedShape line lvl ts msg := by
  constructor
  · intro h
    obtain ⟨r₁, hml, hbr, hfc⟩ := classify_some_inv h
    obtain ⟨hmem, hline⟩ := matchLevel_decomp hml
    obtain ⟨mid, rest, hs, hts, hne, hnl, hmt, hmin⟩ :=
      findClose_sound _ [] ts msg hfc
    have htsmid : ts = mid := by simpa using hts
    obtain ⟨c0, cs0, hrest, hc0, hmsg⟩ := matchTail_some_inv hmt
    have h1 : '[' :: (r₁.dropWhile isRustSpace).tail =
        r₁.dropWhile isRustSpace := cons_tail_of_head? hbr
    have h3 : r₁.dropWhile isRustSpace = '[' :: (ts ++ ']' :: rest) := by
      rw [← h1, hs, htsmid]
    have h2 : r₁ = r₁.takeWhile isRustSpace ++ ('[' :: (ts ++ ']' :: rest)) := by
      conv_lhs => rw [← List.takeWhile_append_dropWhile (p := isRustSpace)
        (l := r₁), h3]
    refine ⟨hmem, r₁.takeWhile isRustSpace, rest, ?_, ?_, ?_, ?_,
      ⟨c0, cs0, hrest, hc0⟩, hmsg, ?_⟩
    · rw [hline]
      conv_lhs => rw [h2]
      simp [List.append_assoc]
    · intro c hc
      simpa using List.mem_takeWhile_imp hc
    · rw [htsmid]
      simpa using hne
    · rw [htsmid]
      exact hnl
    · intro a b hab hane
      have h4 := hmin a b (htsmid ▸ hab) (by simpa using hane)
      exact matchTail_none_inv (by simp) h4
  · rintro ⟨hmem, ws, rest, hline, hws, htsne, hnl, ⟨c0, cs0, hrest, hc0⟩,
      hmsg, hmin⟩
    have hline2 : line = lvl ++ (ws ++ ('[' :: (ts ++ ']' :: rest))) := by
      rw [hline]
      simp [List.append_assoc]
    have hml2 : matchLevel line =
        some (lvl, ws ++ ('[' :: (ts ++ ']' :: rest))) := by
      rw [hline2]
      exact matchLevel_complete _ hmem
    have hdw : (ws ++ ('[' :: (ts ++ ']' :: rest))).dropWhile isRustSpace =
        '[' :: (ts ++ ']' :: rest) := by
      rw [dropWhile_append_all hws]
      exact List.dropWhile_cons_of_neg (by decide)
    have hfc : findClose [] (ts ++ ']' :: rest) = some (ts, msg) := by
      have h1 := findClose_complete ts [] rest msg hnl (by simpa using htsne)
        (by rw [hmsg, hrest]; exact matchTail_of_head hc0)
        (fun a b hab hane =>
          matchTail_none_of_head (by simp) (hmin a b hab (by simpa using hane)))
      simpa using h1
    simp only [classify, hml2, Option.some_bind, hdw, List.head?_cons,
      List.tail_cons]
    simp [hfc]

/-- Claim C3 counterexample: on `INFO [a]b] c` the spec's grammar (timestamp
contents exclude `]`) rejects the line — the first `]` is followed by `b`,
not whitespace — but the code's lazy group backtracks past that `]` and
captures the timestamp `a]b` with message `c`. -/
theorem c3_counterexample_bracket_backtracking :
    classify (String.data "INFO [a]b] c") =
      some (String.data "INFO", String.data "a]b", String.data "c") ∧
    classifySpec (String.data "INFO [a]b] c") = none :=
  ⟨rfl, rfl⟩

end LogCruncher

